import Mathlib

/-!
Verification of the generic puzzle-solver engine (`puzzle_tools.py`) and the
two concrete configuration variants (`grid_peg_solitaire_puzzle.py`,
`mn_puzzle.py`) of the GameSolver repository, against its specification.

The engine is shallowly embedded: a puzzle variant is a record of the four
contract operations (`is_solved`, `fail_fast`, `extensions`, `__str__`), the
recursive depth-first solver and the queue-driven breadth-first solver are
translated as fuel-indexed functions (Python recursion/`while` is unbounded;
`none` at the outer level means the fuel ran out, never a verdict), and the
mutable `seen` set and the FIFO `deque` are threaded explicitly.  The solver
functions additionally accumulate ghost traces (the recursive calls made, the
configurations whose keys were marked visited, the configurations placed into
created `PuzzleNode` objects); the traces never influence control flow and
exist so that claims about visitation and node creation are statable.
-/

set_option maxRecDepth 4000
set_option maxHeartbeats 1000000

/-- The polymorphic puzzle contract from `puzzle.py` / spec section 4.1: a
configuration type together with the four operations the engine queries.
`render` is the canonical key, Python's `str(puzzle)`. -/
structure Puzzle (α : Type) where
  is_solved : α → Bool
  fail_fast : α → Bool
  extensions : α → List α
  render : α → String

/-- `PuzzleNode` from `puzzle_tools.py`: a configuration with a list of child
nodes.  The Python parent back-reference is not stored; the breadth-first
entries below carry the parent chain explicitly instead. -/
inductive PNode (α : Type) where
  | mk : α → List (PNode α) → PNode α

/-- Configuration owned by the node (`self.puzzle`). -/
def PNode.config {α : Type} : PNode α → α
  | .mk a _ => a

/-- Number of nodes along the first-child spine of a tree; on the linear
chains returned by the solvers this is the node count of the whole tree. -/
def nodeCount {α : Type} : PNode α → Nat
  | .mk _ [] => 1
  | .mk _ (c :: _) => 1 + nodeCount c

/-- Configurations along the first-child spine, root first; on a linear chain
these are exactly the configurations of all created nodes of the chain. -/
def chainConfigs {α : Type} : PNode α → List α
  | .mk a [] => [a]
  | .mk a (c :: _) => a :: chainConfigs c

/-- The tree is a linear chain (every node has at most one child) whose final,
childless node holds a solved configuration. -/
def LinearSolved {α : Type} (P : Puzzle α) : PNode α → Prop
  | .mk a [] => P.is_solved a = true
  | .mk _ [c] => LinearSolved P c
  | .mk _ (_ :: _ :: _) => False

/-- `_helper_dfs`'s `for x in list_extensions` loop.  `recur` is the recursive
call at the remaining recursion budget; `p` is the configuration being
expanded, so that a successful sub-search can be wrapped as
`PuzzleNode(puzzle, [node])`.  The third result component is the ghost trace
of recursive calls: each entry records the extension recursed on and the
`seen` set passed into the call (the key is added *before* the call, line 62
of `puzzle_tools.py`). -/
def dfsLoop {α : Type} (P : Puzzle α)
    (recur : α → List String → List (α × List String) →
      Option (Option (PNode α) × List String × List (α × List String)))
    (p : α) :
    List α → List String → List (α × List String) →
      Option (Option (PNode α) × List String × List (α × List String))
  | [], seen, tr => some (none, seen, tr)
  | x :: rest, seen, tr =>
    if P.render x ∈ seen then dfsLoop P recur p rest seen tr
    else
      match recur x (P.render x :: seen) (tr ++ [(x, P.render x :: seen)]) with
      | none => none
      | some (some node, seen2, tr2) => some (some (PNode.mk p [node]), seen2, tr2)
      | some (none, seen2, tr2) => dfsLoop P recur p rest seen2 tr2

/-- `_helper_dfs` of `puzzle_tools.py`, fuel-indexed (outer `none` = fuel ran
out).  Solved configurations yield a leaf; `fail_fast` kills the branch;
otherwise the extensions are tried in order through `dfsLoop`. -/
def helper_dfsT {α : Type} (P : Puzzle α) :
    Nat → α → List String → List (α × List String) →
      Option (Option (PNode α) × List String × List (α × List String))
  | 0, _, _, _ => none
  | fuel + 1, p, seen, tr =>
    if P.is_solved p then some (some (PNode.mk p []), seen, tr)
    else if P.fail_fast p then some (none, seen, tr)
    else dfsLoop P (helper_dfsT P fuel) p (P.extensions p) seen tr

/-- `depth_first_solve` of `puzzle_tools.py`: run `_helper_dfs` with a fresh
empty `seen` set and return its verdict. -/
def depth_first_solve {α : Type} (P : Puzzle α) (fuel : Nat) (p : α) :
    Option (Option (PNode α)) :=
  match helper_dfsT P fuel p [] [] with
  | none => none
  | some (r, _, _) => some r

/-- A queue element of `_helper_bfs`: a `PuzzleNode` wrapping `cur`, whose
parent chain holds the configurations `pre` (root first), and whose child
nodes were already created from `kids = extensions(cur)` when the node was
marked (`PN.children = _helper_dfs_extension(PN.puzzle.extensions(), PN)`). -/
structure BEntry (α : Type) where
  cur : α
  pre : List α
  kids : List α

/-- `str(first_node)` as computed at line 134 of `puzzle_tools.py`: by
`PuzzleNode.__str__`, the node's configuration rendering, `"\n\n"`, then the
renderings of its children joined by `"\n"`; each child is a fresh extension
node with no children of its own, so each child contributes
`render(child) ++ "\n\n"`.  Note this is *not* `str(first_node.puzzle)`. -/
def initNodeStr {α : Type} (P : Puzzle α) (p : α) : String :=
  P.render p ++ "\n\n" ++
    String.intercalate "\n" ((P.extensions p).map (fun c => P.render c ++ "\n\n"))

/-- The `for PN in removed.children` loop of `_helper_bfs` (lines 143-149):
each child whose key is unvisited is marked, gets its own children created
eagerly, and is enqueued.  `path` is the parent chain of the children
(`removed`'s chain plus `removed` itself).  The last two components
accumulate the ghost lists of marked configurations and of configurations
placed into created `PuzzleNode`s. -/
def processKidsT {α : Type} (P : Puzzle α) :
    List α → List α → List (BEntry α) → List String → List α → List α →
      List (BEntry α) × List String × List α × List α
  | [], _, q, seen, mk, cr => (q, seen, mk, cr)
  | c :: rest, path, q, seen, mk, cr =>
    if P.render c ∈ seen then processKidsT P rest path q seen mk cr
    else
      processKidsT P rest path (q ++ [⟨c, path, P.extensions c⟩])
        (P.render c :: seen) (mk ++ [c]) (cr ++ P.extensions c)

/-- The `while queue` loop of `_helper_bfs` (lines 136-154), fuel-indexed on
iterations: pop the front; a solved configuration is returned; an unsolved,
non-`fail_fast` configuration has its pre-created children traversed via
`processKidsT`; a `fail_fast` one is dropped.  Queue exhaustion yields the
inner `none` ("no solution"). -/
def bfsLoopT {α : Type} (P : Puzzle α) :
    Nat → List (BEntry α) → List String → List α → List α →
      Option (Option (BEntry α) × List String × List α × List α)
  | 0, _, _, _, _ => none
  | _ + 1, [], seen, mk, cr => some (none, seen, mk, cr)
  | fuel + 1, e :: q, seen, mk, cr =>
    if P.is_solved e.cur = false then
      if P.fail_fast e.cur = false then
        let r := processKidsT P e.kids (e.pre ++ [e.cur]) q seen mk cr
        bfsLoopT P fuel r.1 r.2.1 r.2.2.1 r.2.2.2
      else bfsLoopT P fuel q seen mk cr
    else some (some e, seen, mk, cr)

/-- `_helper_bfs` of `puzzle_tools.py` (lines 127-134 then the loop): wrap the
root, create its children eagerly, enqueue it, and add `str(first_node)` --
the *node* rendering, not the configuration's key -- to `seen`.  The created
ghost list starts with the root node and its eagerly created children. -/
def helper_bfsT {α : Type} (P : Puzzle α) (fuel : Nat) (p : α) :
    Option (Option (BEntry α) × List String × List α × List α) :=
  bfsLoopT P fuel [⟨p, [], P.extensions p⟩] [initNodeStr P p] [] (p :: P.extensions p)

/-- Linear chain with the configurations `pre` above the final node `a`;
the result of `_helper_bfs_rebuild` on a found node whose parent chain is
`pre`. -/
def chainFrom {α : Type} : List α → α → PNode α
  | [], a => PNode.mk a []
  | x :: r, a => PNode.mk x [chainFrom r a]

/-- `breadth_first_solve` of `puzzle_tools.py`: run `_helper_bfs`; on success
rebuild the parent chain of the found node into a linear root-to-solution
chain (`_helper_bfs_rebuild` clears the found node's children and rewrites
each parent's child list to the singleton of the node below it). -/
def breadth_first_solve {α : Type} (P : Puzzle α) (fuel : Nat) (p : α) :
    Option (Option (PNode α)) :=
  match helper_bfsT P fuel p with
  | none => none
  | some (none, _, _, _) => some none
  | some (some e, _, _, _) => some (some (chainFrom e.pre e.cur))

/-- `SolSeq P s moves = true` says `moves` is a legal solution record from
`s`: successive configurations are one extension step apart, every
configuration before the last is neither solved nor `fail_fast` (so a search
that prunes by `fail_fast` can discover the whole sequence), and the final
configuration is solved.  `moves.length` is the move count of the solution. -/
def SolSeq {α : Type} [DecidableEq α] (P : Puzzle α) : α → List α → Bool
  | s, [] => P.is_solved s
  | s, b :: rest =>
    !P.is_solved s && !P.fail_fast s && decide (b ∈ P.extensions s) && SolSeq P b rest

/-- Configurations reachable from `root` by repeated `extensions` moves. -/
inductive Reach {α : Type} (P : Puzzle α) (root : α) : α → Prop
  | refl : Reach P root root
  | step : ∀ {a b : α}, Reach P root a → b ∈ P.extensions a → Reach P root b

/-! ### Concrete contract-conforming micro-puzzles used as test inputs -/

/-- Three states for a cyclic puzzle: the root `r`, an intermediate `e` that
moves back to `r`, and a solved state `g`. -/
inductive CycS where
  | r | e | g
  deriving DecidableEq, Fintype, Repr

/-- A contract-conforming puzzle whose state graph has a cycle `r -> e -> r`:
two distinct move sequences (the empty one, and `e` then back) reach `r`. -/
def CycP : Puzzle CycS where
  is_solved := fun s => match s with | .g => true | _ => false
  fail_fast := fun _ => false
  extensions := fun s => match s with | .r => [.e, .g] | .e => [.r] | .g => []
  render := fun s => match s with | .r => "r" | .e => "e" | .g => "g"

/-- States for the breadth-first minimality counterexample: root `r`, then
`a`; from `a` both `x` (one step from a solution) and `b` (two steps from a
solution, through `b2`) are reachable; `g` is solved. -/
inductive WS where
  | r | a | x | b | b2 | g
  deriving DecidableEq, Fintype, Repr

/-- A contract-conforming puzzle (deterministic operations, injective keys)
whose state `x` happens to render exactly as `str(first_node)` -- the node
string that `_helper_bfs` stores in `seen` instead of the root's key. -/
def WP : Puzzle WS where
  is_solved := fun s => match s with | .g => true | _ => false
  fail_fast := fun _ => false
  extensions := fun s => match s with
    | .r => [.a] | .a => [.x, .b] | .x => [.g] | .b => [.b2] | .b2 => [.g] | .g => []
  render := fun s => match s with
    | .r => "r" | .a => "a" | .x => "r\n\na\n\n" | .b => "b" | .b2 => "c" | .g => "g"

/-- A three-state line puzzle `s0 -> s1 -> s2` with `s2` solved. -/
inductive LinS where
  | s0 | s1 | s2
  deriving DecidableEq, Fintype, Repr

/-- Puzzle for the line `s0 -> s1 -> s2`, used to witness solver runs. -/
def LinP : Puzzle LinS where
  is_solved := fun s => match s with | .s2 => true | _ => false
  fail_fast := fun _ => false
  extensions := fun s => match s with | .s0 => [.s1] | .s1 => [.s2] | .s2 => []
  render := fun s => match s with | .s0 => "0" | .s1 => "1" | .s2 => "2"

/-- Two states looping on each other, neither solved. -/
inductive ABS where
  | a | b
  deriving DecidableEq, Fintype, Repr

/-- An unsolvable two-state cycle: finite reachable graph, no solved state. -/
def ABP : Puzzle ABS where
  is_solved := fun _ => false
  fail_fast := fun _ => false
  extensions := fun s => match s with | .a => [.b] | .b => [.a]
  render := fun s => match s with | .a => "A" | .b => "B"

/-! ### The sliding-tile variant, `mn_puzzle.py` -/

/-- `MNPuzzle`: a current grid working towards a target grid.  The source
stores tiles as arbitrary strings (`tuple[tuple[str]]`, "letters or
numerals" -- a 15-puzzle would need two-character numerals), so cells are
`String`s here, the blank being the one-character string `"*"`.  `n` and `m`
are derivable (`len(from_grid)`, `len(from_grid[0])`), so `__eq__`'s
comparison of `n`, `m`, `from_grid` and `to_grid` coincides with structural
equality of the two grids, which is what `DecidableEq` provides. -/
structure MNPuzzle where
  from_grid : List (List String)
  to_grid : List (List String)
  deriving DecidableEq, Repr

/-- Rows of rendered characters joined by `'\n'`, as built by the `__str__`
methods of both variants (append every symbol of a row, then `'\n'`; finally
drop the trailing `'\n'`, which leaves exactly a `'\n'`-separated join). -/
def joinRows : List (List Char) → List Char
  | [] => []
  | [row] => row
  | row :: rest => row ++ '\n' :: joinRows rest

/-- The characters one row of string tiles contributes to the rendering: the
concatenation of the tiles' characters (`string += j` for each symbol `j` of
the row). -/
def rowStr : List String → List Char
  | [] => []
  | c :: r => c.data ++ rowStr r

/-- `MNPuzzle.__str__`: the joined rendered rows of `from_grid` (only!),
then a newline and the `"_____"` footer. -/
def mnStr (p : MNPuzzle) : String :=
  String.mk (joinRows (p.from_grid.map rowStr) ++ '\n' :: ['_', '_', '_', '_', '_'])

/-- `MNPuzzle.is_solved`: the current grid equals the target grid. -/
def mnIsSolved (p : MNPuzzle) : Bool :=
  p.from_grid == p.to_grid

/-- Read cell `(i, j)` of a character grid (used by the peg variant; all
reads in the source are guarded to be in bounds, so the default is never
returned on guarded paths). -/
def cellAt (g : List (List Char)) (i j : Nat) : Char :=
  (g.getD i []).getD j ' '

/-- Write cell `(i, j)` of a character grid (used by the peg variant). -/
def setCell (g : List (List Char)) (i j : Nat) (c : Char) : List (List Char) :=
  g.set i ((g.getD i []).set j c)

/-- Read cell `(i, j)` of a tile grid.  All reads in the source are guarded
to be in bounds, so the default is immaterial; the one-character `"*"` keeps
the tile-width bookkeeping uniform. -/
def mnCell (g : List (List String)) (i j : Nat) : String :=
  (g.getD i []).getD j "*"

/-- Write cell `(i, j)` of a tile grid. -/
def mnSet (g : List (List String)) (i j : Nat) (c : String) : List (List String) :=
  g.set i ((g.getD i []).set j c)

/-- The simultaneous assignment `grid[i][j], grid[i'][j'] = grid[i'][j'], "*"`
used by `MNPuzzle.extensions`: the blank at `(i, j)` receives the symbol at
`(i', j')`, which becomes the blank. -/
def mnSwap (g : List (List String)) (i j i' j' : Nat) : List (List String) :=
  mnSet (mnSet g i j (mnCell g i' j')) i' j' "*"

/-- `MNPuzzle.extensions` (lines 82-143 of `mn_puzzle.py`): scan the grid in
row-major order for the blank `"*"`; at each blank emit, in order, the swap
with the cell to the right, to the left, in the row below (`i + 1`, the
source's "above" comment notwithstanding), and in the row above.  The
source's `grid[...][...].isalnum` guard does not call the method, so it is a
method object and always truthy; the effective guards are the bounds checks
(`j + 1 in range(self.m)` etc., with `self.m = len(from_grid[0])` and
`self.n = len(from_grid)`), which is what is modelled here.  Each new
configuration keeps `self.to_grid`. -/
def mnExtensions (p : MNPuzzle) : List MNPuzzle :=
  let g := p.from_grid
  let n := g.length
  let m := (g.headD []).length
  (List.range n).flatMap (fun i =>
    (List.range m).flatMap (fun j =>
      if mnCell g i j = "*" then
        (if j + 1 < m then [MNPuzzle.mk (mnSwap g i j i (j + 1)) p.to_grid] else []) ++
        (if 1 ≤ j ∧ j - 1 < m then [MNPuzzle.mk (mnSwap g i j i (j - 1)) p.to_grid] else []) ++
        (if i + 1 < n then [MNPuzzle.mk (mnSwap g i j (i + 1) j) p.to_grid] else []) ++
        (if 1 ≤ i ∧ i - 1 < n then [MNPuzzle.mk (mnSwap g i j (i - 1) j) p.to_grid] else [])
      else []))

/-- Configurations reachable from `root` by repeated `MNPuzzle.extensions`
moves, the state graph one `solve` call explores. -/
inductive MNReach (root : MNPuzzle) : MNPuzzle → Prop
  | refl : MNReach root root
  | step : ∀ {p q : MNPuzzle}, MNReach root p → q ∈ mnExtensions p → MNReach root q

/-- Every tile of the grid is a single character; this holds of every driver
and doctest in the repository (tiles are the digits 1-5 and the blank), and
it is the regime in which the rendering is collision-free. -/
def CellsLen1 (g : List (List String)) : Prop :=
  ∀ row ∈ g, ∀ c ∈ row, c.length = 1

/-- Tile-width conformance of a concrete grid is checkable by evaluation. -/
instance (g : List (List String)) : Decidable (CellsLen1 g) :=
  inferInstanceAs (Decidable (∀ row ∈ g, ∀ c ∈ row, c.length = 1))

/-! ### The peg-jump variant, `grid_peg_solitaire_puzzle.py` -/

/-- `GridPegSolitairePuzzle.__str__`: the joined rows of the marker grid,
then a newline and the `"_____"` footer (same construction as `mnStr`). -/
def pegStr (g : List (List Char)) : String :=
  String.mk (joinRows g ++ '\n' :: ['_', '_', '_', '_', '_'])

/-- `GridPegSolitairePuzzle.is_solved`: exactly one peg `'*'` remains. -/
def pegIsSolved (g : List (List Char)) : Bool :=
  (g.foldl (fun acc row => acc + row.countP (fun c => c == '*')) 0) == 1

/-- `GridPegSolitairePuzzle.extensions` (lines 83-156): scan for an empty
cell `'.'` in row-major order; at each one emit, in order, the jump from the
right (`j+1`, `j+2` are pegs), from the left, from below (`i+1`, `i+2`) and
from above, each time filling the empty cell with a peg and emptying the two
jumped-over cells.  Column bounds use the length of row 0 (`len(grid_[0])`),
row bounds the number of rows, exactly as in the source; the jumping peg's
marker set is carried unchanged and plays no role in the moves, so
configurations are modelled by their marker grids. -/
def pegExtensions (g : List (List Char)) : List (List (List Char)) :=
  let h := g.length
  let w := (g.headD []).length
  (List.range h).flatMap (fun i =>
    (List.range (g.getD i []).length).flatMap (fun j =>
      if cellAt g i j = '.' then
        (if j + 2 < w ∧ cellAt g i (j + 1) = '*' ∧ cellAt g i (j + 2) = '*' then
          [setCell (setCell (setCell g i j '*') i (j + 1) '.') i (j + 2) '.'] else []) ++
        (if 2 ≤ j ∧ j - 2 < w ∧ cellAt g i (j - 1) = '*' ∧ cellAt g i (j - 2) = '*' then
          [setCell (setCell (setCell g i j '*') i (j - 1) '.') i (j - 2) '.'] else []) ++
        (if i + 2 < h ∧ cellAt g (i + 1) j = '*' ∧ cellAt g (i + 2) j = '*' then
          [setCell (setCell (setCell g i j '*') (i + 1) j '.') (i + 2) j '.'] else []) ++
        (if 2 ≤ i ∧ i - 2 < h ∧ cellAt g (i - 1) j = '*' ∧ cellAt g (i - 2) j = '*' then
          [setCell (setCell (setCell g i j '*') (i - 1) j '.') (i - 2) j '.'] else [])
      else []))

/-! ### Theorems -/

/-- C9: for the peg puzzle whose marker is the single row `*,*,.,*` (the
marker set, constrained to `*`,`.`,`#`, does not influence moves),
`extensions()` returns exactly one configuration, it renders as `..**`
followed by the footer, and `is_solved()` on the start is false. -/
theorem peg_single_row_scenario :
    pegExtensions [['*', '*', '.', '*']] = [[['.', '.', '*', '*']]] ∧
    pegStr [['.', '.', '*', '*']] = "..**\n_____" ∧
    pegIsSolved [['*', '*', '.', '*']] = false := by
  refine ⟨by decide, ?_, by decide⟩
  rfl

/-- Any successful result of the `for x in list_extensions` loop is a node
wrapping the expanded configuration `p` around a linear solved chain,
provided every successful recursive call yields a linear solved chain rooted
at its argument. -/
theorem dfsLoop_chain {α : Type} (P : Puzzle α)
    (recur : α → List String → List (α × List String) →
      Option (Option (PNode α) × List String × List (α × List String)))
    (hrec : ∀ x s t node s' t', recur x s t = some (some node, s', t') →
      node.config = x ∧ LinearSolved P node) :
    ∀ (xs : List α) (p : α) (seen : List String) (tr : List (α × List String))
      (node : PNode α) (seen' : List String) (tr' : List (α × List String)),
      dfsLoop P recur p xs seen tr = some (some node, seen', tr') →
      node.config = p ∧ LinearSolved P node := by
  intro xs
  induction xs with
  | nil =>
    intro p seen tr node seen' tr' h
    simp [dfsLoop] at h
  | cons x rest ih =>
    intro p seen tr node seen' tr' h
    rw [dfsLoop] at h
    split at h
    · exact ih p seen tr node seen' tr' h
    · split at h
      next => exact absurd h (by simp)
      next node2 seen2 tr2 heq =>
        obtain ⟨h1, h2, h3⟩ := by simpa using h
        subst h1
        exact ⟨rfl, (hrec x _ _ node2 seen2 tr2 heq).2⟩
      next seen2 tr2 heq => exact ih p seen2 tr2 node seen' tr' h

/-- Any successful `_helper_dfs` result is a linear solved chain whose root
configuration is the configuration searched from. -/
theorem helper_dfs_chain {α : Type} (P : Puzzle α) :
    ∀ (fuel : Nat) (p : α) (seen : List String) (tr : List (α × List String))
      (node : PNode α) (seen' : List String) (tr' : List (α × List String)),
      helper_dfsT P fuel p seen tr = some (some node, seen', tr') →
      node.config = p ∧ LinearSolved P node := by
  intro fuel
  induction fuel with
  | zero =>
    intro p seen tr node seen' tr' h
    simp [helper_dfsT] at h
  | succ f ih =>
    intro p seen tr node seen' tr' h
    rw [helper_dfsT] at h
    split at h
    next hs =>
      obtain ⟨h1, h2, h3⟩ := by simpa using h
      subst h1
      exact ⟨rfl, hs⟩
    · split at h
      next => exact absurd h (by simp)
      next =>
        exact dfsLoop_chain P (helper_dfsT P f)
          (fun x s t n s' t' hx => ih x s t n s' t' hx)
          (P.extensions p) p seen tr node seen' tr' h

/-- C2: whenever `depth_first_solve` returns a tree (rather than the
no-solution sentinel), the tree's root configuration is the input
configuration, every node of the tree has at most one child, and the final,
childless node's configuration is solved. -/
theorem depth_first_solve_chain {α : Type} (P : Puzzle α) (fuel : Nat) (root : α)
    (t : PNode α) (h : depth_first_solve P fuel root = some (some t)) :
    t.config = root ∧ LinearSolved P t := by
  unfold depth_first_solve at h
  cases heq : helper_dfsT P fuel root [] [] with
  | none => rw [heq] at h; exact absurd h (by simp)
  | some val =>
    obtain ⟨res, s', tr'⟩ := val
    rw [heq] at h
    obtain rfl : res = some t := by simpa using h
    exact helper_dfs_chain P fuel root [] [] t s' tr' heq

/-- Witness for C2: on the three-state line puzzle the solver returns the
chain `s0 -> s1 -> s2`, whose root is the input and whose leaf is solved. -/
theorem depth_first_solve_chain_witness :
    (chainFrom [LinS.s0, LinS.s1] LinS.s2).config = LinS.s0 ∧
    LinearSolved LinP (chainFrom [LinS.s0, LinS.s1] LinS.s2) :=
  depth_first_solve_chain LinP 5 LinS.s0 (chainFrom [LinS.s0, LinS.s1] LinS.s2) rfl

/-- C3: an already-solved root makes both solvers return the one-node tree
holding exactly the root configuration, whatever the rest of the puzzle
looks like (the statement holds for every contract instance `P` that marks
`root` solved, so no exploration beyond the root can influence it). -/
theorem solved_root_one_node {α : Type} (P : Puzzle α) (root : α) (fuel : Nat)
    (hfuel : 1 ≤ fuel) (hs : P.is_solved root = true) :
    depth_first_solve P fuel root = some (some (PNode.mk root [])) ∧
    breadth_first_solve P fuel root = some (some (PNode.mk root [])) := by
  obtain ⟨f, rfl⟩ : ∃ f, fuel = f + 1 := ⟨fuel - 1, by omega⟩
  constructor
  · simp [depth_first_solve, helper_dfsT, hs]
  · simp [breadth_first_solve, helper_bfsT, bfsLoopT, hs, chainFrom]

/-- Witness for C3 at the solved state of the line puzzle. -/
theorem solved_root_one_node_witness :
    depth_first_solve LinP 1 LinS.s2 = some (some (PNode.mk LinS.s2 [])) ∧
    breadth_first_solve LinP 1 LinS.s2 = some (some (PNode.mk LinS.s2 [])) :=
  solved_root_one_node LinP LinS.s2 1 (by decide) (by decide)

/-- C8: both solvers are deterministic functions of the contract operations:
two puzzle instances whose `is_solved`, `fail_fast`, `extensions` and
rendering agree pointwise produce identical depth-first results (hence the
exact same chain) and identical breadth-first results (hence chains of
identical length) on the same root and budget. -/
theorem solvers_deterministic {α : Type} (P Q : Puzzle α)
    (hs : ∀ a, P.is_solved a = Q.is_solved a)
    (hf : ∀ a, P.fail_fast a = Q.fail_fast a)
    (he : ∀ a, P.extensions a = Q.extensions a)
    (hr : ∀ a, P.render a = Q.render a)
    (fuel : Nat) (root : α) :
    depth_first_solve P fuel root = depth_first_solve Q fuel root ∧
    breadth_first_solve P fuel root = breadth_first_solve Q fuel root := by
  obtain ⟨ps, pf, pe, pr⟩ := P
  obtain ⟨qs, qf, qe, qr⟩ := Q
  obtain rfl : ps = qs := funext hs
  obtain rfl : pf = qf := funext hf
  obtain rfl : pe = qe := funext he
  obtain rfl : pr = qr := funext hr
  exact ⟨rfl, rfl⟩

/-- Witness for C8: two copies of the line puzzle's contract operations give
the same solver results. -/
theorem solvers_deterministic_witness :
    depth_first_solve LinP 5 LinS.s0 = depth_first_solve LinP 5 LinS.s0 ∧
    breadth_first_solve LinP 5 LinS.s0 = breadth_first_solve LinP 5 LinS.s0 :=
  solvers_deterministic LinP LinP (fun _ => rfl) (fun _ => rfl) (fun _ => rfl)
    (fun _ => rfl) 5 LinS.s0

/-- What one pass of the `for PN in removed.children` loop does: it appends
to the queue one new entry per child whose key was unvisited (in order,
parent chain `path`, children precomputed), marks exactly those children's
keys (fresh and pairwise distinct), and afterwards every child's key is
visited. -/
theorem processKidsT_spec {α : Type} (P : Puzzle α) :
    ∀ (kids path : List α) (q : List (BEntry α)) (seen : List String)
      (mk cr : List α),
      ∃ newE : List (BEntry α),
        (processKidsT P kids path q seen mk cr).1 = q ++ newE ∧
        (processKidsT P kids path q seen mk cr).2.1 =
          (newE.map (fun e => P.render e.cur)).reverse ++ seen ∧
        (processKidsT P kids path q seen mk cr).2.2.1 = mk ++ newE.map BEntry.cur ∧
        (∀ e ∈ newE, e.pre = path ∧ e.kids = P.extensions e.cur ∧
          e.cur ∈ kids ∧ P.render e.cur ∉ seen) ∧
        (newE.map (fun e => P.render e.cur)).Nodup ∧
        (∀ c ∈ kids, P.render c ∈ (processKidsT P kids path q seen mk cr).2.1) := by
  intro kids
  induction kids with
  | nil =>
    intro path q seen mk cr
    exact ⟨[], by simp [processKidsT]⟩
  | cons c rest ih =>
    intro path q seen mk cr
    by_cases hc : P.render c ∈ seen
    · have key : processKidsT P (c :: rest) path q seen mk cr =
        processKidsT P rest path q seen mk cr := by
        rw [processKidsT, if_pos hc]
      obtain ⟨newE, h1, h2, h3, h4, h5, h6⟩ := ih path q seen mk cr
      rw [key]
      refine ⟨newE, h1, h2, h3, ?_, h5, ?_⟩
      · intro e he
        obtain ⟨e1, e2, e3, e4⟩ := h4 e he
        exact ⟨e1, e2, List.mem_cons_of_mem _ e3, e4⟩
      · intro d hd
        rw [List.mem_cons] at hd
        rcases hd with rfl | hd
        · rw [h2]; exact List.mem_append_right _ hc
        · exact h6 d hd
    · have key : processKidsT P (c :: rest) path q seen mk cr =
        processKidsT P rest path (q ++ [⟨c, path, P.extensions c⟩])
          (P.render c :: seen) (mk ++ [c]) (cr ++ P.extensions c) := by
        rw [processKidsT, if_neg hc]
      obtain ⟨newE, h1, h2, h3, h4, h5, h6⟩ :=
        ih path (q ++ [⟨c, path, P.extensions c⟩]) (P.render c :: seen)
          (mk ++ [c]) (cr ++ P.extensions c)
      rw [key]
      refine ⟨⟨c, path, P.extensions c⟩ :: newE, ?_, ?_, ?_, ?_, ?_, ?_⟩
      · rw [h1]; simp
      · rw [h2]; simp
      · rw [h3]; simp
      · intro e he
        rw [List.mem_cons] at he
        rcases he with rfl | he
        · exact ⟨rfl, rfl, List.mem_cons_self _ _, hc⟩
        · obtain ⟨e1, e2, e3, e4⟩ := h4 e he
          refine ⟨e1, e2, List.mem_cons_of_mem _ e3, fun hmem => e4 ?_⟩
          exact List.mem_cons_of_mem _ hmem
      · refine List.nodup_cons.mpr ⟨?_, h5⟩
        intro hmem
        obtain ⟨e, he, heq⟩ := List.mem_map.mp hmem
        exact (h4 e he).2.2.2 (heq ▸ List.mem_cons_self _ _)
      · intro d hd
        rw [List.mem_cons] at hd
        rcases hd with rfl | hd
        · rw [h2]; simp
        · exact h6 d hd

/-- The extension loop only ever grows the `seen` set. -/
theorem dfsLoop_seen_mono {α : Type} (P : Puzzle α)
    (recur : α → List String → List (α × List String) →
      Option (Option (PNode α) × List String × List (α × List String)))
    (hrec : ∀ x s t r s' t', recur x s t = some (r, s', t') → s ⊆ s') :
    ∀ (xs : List α) (p : α) (seen : List String) (tr : List (α × List String))
      (r : Option (PNode α)) (seen' : List String) (tr' : List (α × List String)),
      dfsLoop P recur p xs seen tr = some (r, seen', tr') → seen ⊆ seen' := by
  intro xs
  induction xs with
  | nil =>
    intro p seen tr r seen' tr' h
    simp only [dfsLoop, Option.some.injEq, Prod.mk.injEq] at h
    exact h.2.1 ▸ List.Subset.refl _
  | cons x rest ih =>
    intro p seen tr r seen' tr' h
    rw [dfsLoop] at h
    split at h
    · exact ih p seen tr r seen' tr' h
    · split at h
      next => exact absurd h (by simp)
      next node2 seen2 tr2 heq =>
        simp only [Option.some.injEq, Prod.mk.injEq] at h
        exact h.2.1 ▸ (List.subset_cons_self _ _).trans (hrec _ _ _ _ _ _ heq)
      next seen2 tr2 heq =>
        exact ((List.subset_cons_self _ _).trans (hrec _ _ _ _ _ _ heq)).trans
          (ih p seen2 tr2 r seen' tr' h)

/-- `_helper_dfs` only ever grows the `seen` set. -/
theorem helper_dfs_seen_mono {α : Type} (P : Puzzle α) :
    ∀ (fuel : Nat) (p : α) (seen : List String) (tr : List (α × List String))
      (r : Option (PNode α)) (seen' : List String) (tr' : List (α × List String)),
      helper_dfsT P fuel p seen tr = some (r, seen', tr') → seen ⊆ seen' := by
  intro fuel
  induction fuel with
  | zero =>
    intro p seen tr r seen' tr' h
    simp [helper_dfsT] at h
  | succ f ih =>
    intro p seen tr r seen' tr' h
    rw [helper_dfsT] at h
    split at h
    · simp only [Option.some.injEq, Prod.mk.injEq] at h
      exact h.2.1 ▸ List.Subset.refl _
    · split at h
      · simp only [Option.some.injEq, Prod.mk.injEq] at h
        exact h.2.1 ▸ List.Subset.refl _
      · exact dfsLoop_seen_mono P (helper_dfsT P f)
          (fun x s t r' s' t' hx => ih x s t r' s' t' hx)
          (P.extensions p) p seen tr r seen' tr' h

/-- A successful extension-loop result is a chain whose configurations below
the expanded one have pairwise distinct keys, none of them visited when the
loop started -- provided successful recursive calls have that shape. -/
theorem dfsLoop_distinct {α : Type} (P : Puzzle α)
    (recur : α → List String → List (α × List String) →
      Option (Option (PNode α) × List String × List (α × List String)))
    (hrec : ∀ x s t node s' t', recur x s t = some (some node, s', t') →
      ∃ rest, chainConfigs node = x :: rest ∧ (rest.map P.render).Nodup ∧
        ∀ c ∈ rest, P.render c ∉ s)
    (hmono : ∀ x s t r s' t', recur x s t = some (r, s', t') → s ⊆ s') :
    ∀ (xs : List α) (p : α) (seen : List String) (tr : List (α × List String))
      (node : PNode α) (seen' : List String) (tr' : List (α × List String)),
      dfsLoop P recur p xs seen tr = some (some node, seen', tr') →
      ∃ rest, chainConfigs node = p :: rest ∧ (rest.map P.render).Nodup ∧
        ∀ c ∈ rest, P.render c ∉ seen := by
  intro xs
  induction xs with
  | nil =>
    intro p seen tr node seen' tr' h
    simp [dfsLoop] at h
  | cons x rest ih =>
    intro p seen tr node seen' tr' h
    rw [dfsLoop] at h
    split at h
    · exact ih p seen tr node seen' tr' h
    next hx =>
      split at h
      next => exact absurd h (by simp)
      next node2 seen2 tr2 heq =>
        obtain ⟨h1, -, -⟩ := by simpa using h
        subst h1
        obtain ⟨rest2, hc2, hn2, hf2⟩ := hrec x _ _ node2 seen2 tr2 heq
        refine ⟨x :: rest2, ?_, ?_, ?_⟩
        · simp [chainConfigs, hc2]
        · refine List.nodup_cons.mpr ⟨?_, hn2⟩
          intro hmem
          obtain ⟨c, hcm, hceq⟩ := List.mem_map.mp hmem
          exact hf2 c hcm (hceq ▸ List.mem_cons_self _ _)
        · intro c hcm
          rw [List.mem_cons] at hcm
          rcases hcm with rfl | hcm
          · exact hx
          · exact fun hmem => hf2 c hcm (List.mem_cons_of_mem _ hmem)
      next seen2 tr2 heq =>
        obtain ⟨rest2, hc2, hn2, hf2⟩ := ih p seen2 tr2 node seen' tr' h
        refine ⟨rest2, hc2, hn2, fun c hcm hmem => hf2 c hcm ?_⟩
        exact ((List.subset_cons_self _ _).trans (hmono _ _ _ _ _ _ heq)) hmem

/-- A successful `_helper_dfs` result is a chain whose configurations below
the root have pairwise distinct keys, none visited at call time. -/
theorem helper_dfs_distinct {α : Type} (P : Puzzle α) :
    ∀ (fuel : Nat) (p : α) (seen : List String) (tr : List (α × List String))
      (node : PNode α) (seen' : List String) (tr' : List (α × List String)),
      helper_dfsT P fuel p seen tr = some (some node, seen', tr') →
      ∃ rest, chainConfigs node = p :: rest ∧ (rest.map P.render).Nodup ∧
        ∀ c ∈ rest, P.render c ∉ seen := by
  intro fuel
  induction fuel with
  | zero =>
    intro p seen tr node seen' tr' h
    simp [helper_dfsT] at h
  | succ f ih =>
    intro p seen tr node seen' tr' h
    rw [helper_dfsT] at h
    split at h
    · obtain ⟨h1, -, -⟩ := by simpa using h
      subst h1
      exact ⟨[], by simp [chainConfigs], by simp, by simp⟩
    · split at h
      next => exact absurd h (by simp)
      next =>
        exact dfsLoop_distinct P (helper_dfsT P f)
          (fun x s t n s' t' hx => ih x s t n s' t' hx)
          (fun x s t r s' t' hx => helper_dfs_seen_mono P f x s t r s' t' hx)
          (P.extensions p) p seen tr node seen' tr' h

/-- Throughout the breadth-first loop, the keys of the marked configurations
stay pairwise distinct (a key is added to `seen` only when absent, and every
marked key is in `seen`). -/
theorem bfsLoopT_marked_nodup {α : Type} (P : Puzzle α) :
    ∀ (fuel : Nat) (Q : List (BEntry α)) (seen : List String) (mk cr : List α)
      (z : Option (BEntry α) × List String × List α × List α),
      (mk.map P.render).Nodup → (∀ c ∈ mk, P.render c ∈ seen) →
      bfsLoopT P fuel Q seen mk cr = some z → (z.2.2.1.map P.render).Nodup := by
  intro fuel
  induction fuel with
  | zero =>
    intro Q seen mk cr z h1 h2 h
    simp [bfsLoopT] at h
  | succ f ih =>
    intro Q seen mk cr z h1 h2 h
    match Q with
    | [] =>
      simp only [bfsLoopT, Option.some.injEq] at h
      rw [← h]
      exact h1
    | e :: q =>
      rw [bfsLoopT] at h
      split at h
      · split at h
        · obtain ⟨newE, k1, k2, k3, k4, k5, k6⟩ :=
            processKidsT_spec P e.kids (e.pre ++ [e.cur]) q seen mk cr
          replace h : bfsLoopT P f
              (processKidsT P e.kids (e.pre ++ [e.cur]) q seen mk cr).1
              (processKidsT P e.kids (e.pre ++ [e.cur]) q seen mk cr).2.1
              (processKidsT P e.kids (e.pre ++ [e.cur]) q seen mk cr).2.2.1
              (processKidsT P e.kids (e.pre ++ [e.cur]) q seen mk cr).2.2.2 =
              some z := h
          refine ih _ _ _ _ z ?_ ?_ h
          · rw [k3, List.map_append]
            refine List.Nodup.append h1 ?_ ?_
            · rw [List.map_map]
              exact k5
            · intro k hk hk2
              rw [List.map_map] at hk2
              obtain ⟨en, hen, heneq⟩ := List.mem_map.mp hk2
              obtain ⟨c0, hc0, hceq⟩ := List.mem_map.mp hk
              refine (k4 en hen).2.2.2 ?_
              have : P.render en.cur = k := heneq
              rw [this, ← hceq]
              exact h2 c0 hc0
          · intro c hc
            rw [k3] at hc
            rw [k2]
            rw [List.mem_append] at hc
            rcases hc with hc | hc
            · exact List.mem_append_right _ (h2 c hc)
            · refine List.mem_append_left _ ?_
              rw [List.mem_reverse]
              obtain ⟨en, hen, heneq⟩ := List.mem_map.mp hc
              exact List.mem_map.mpr ⟨en, hen, by rw [heneq]⟩
        · exact ih q seen mk cr z h1 h2 h
      · simp only [Option.some.injEq] at h
        rw [← h]
        exact h1

/-- C4 (amended): per solve call each configuration's key is marked at most
once -- the keys of the extensions `depth_first_solve` descends into are
pairwise distinct (so every configuration below the root appears in exactly
one chain node), and the keys `_helper_bfs` marks are pairwise distinct.
Only the root configuration, whose own key is never recorded, can reappear,
and breadth-first node *creation* is not deduplicated. -/
theorem dedup_amended {α : Type} (P : Puzzle α) (fuelD fuelB : Nat) (root : α)
    (t : PNode α) (z : Option (BEntry α) × List String × List α × List α) :
    (depth_first_solve P fuelD root = some (some t) →
      ∃ rest, chainConfigs t = root :: rest ∧ (rest.map P.render).Nodup) ∧
    (helper_bfsT P fuelB root = some z → (z.2.2.1.map P.render).Nodup) := by
  constructor
  · intro h
    unfold depth_first_solve at h
    cases heq : helper_dfsT P fuelD root [] [] with
    | none => rw [heq] at h; exact absurd h (by simp)
    | some val =>
      obtain ⟨res, s', tr'⟩ := val
      rw [heq] at h
      obtain rfl : res = some t := by simpa using h
      obtain ⟨rest, hc, hn, -⟩ := helper_dfs_distinct P fuelD root [] [] t s' tr' heq
      exact ⟨rest, hc, hn⟩
  · intro h
    exact bfsLoopT_marked_nodup P fuelB _ _ [] _ z (by simp) (by simp) h

/-- Witness for C4 (amended) on the line puzzle: the depth-first chain below
the root is duplicate-free, and the breadth-first run marks each key once. -/
theorem dedup_amended_witness :
    (([LinS.s1, LinS.s2] : List LinS).map LinP.render).Nodup ∧
    (([LinS.s1, LinS.s2] : List LinS).map LinP.render).Nodup := by
  obtain ⟨rest, hc, hn⟩ :=
    (dedup_amended LinP 5 6 LinS.s0 (chainFrom [LinS.s0, LinS.s1] LinS.s2)
      (some ⟨LinS.s2, [LinS.s0, LinS.s1], []⟩, ["2", "1", "0\n\n1\n\n"],
        [LinS.s1, LinS.s2], [LinS.s0, LinS.s1, LinS.s2])).1 rfl
  have hrest : rest = [LinS.s1, LinS.s2] := by
    have h2 : chainConfigs (chainFrom [LinS.s0, LinS.s1] LinS.s2) =
      [LinS.s0, LinS.s1, LinS.s2] := rfl
    rw [h2] at hc
    exact (List.cons_eq_cons.mp hc).2.symm
  refine ⟨hrest ▸ hn, ?_⟩
  exact (dedup_amended LinP 5 6 LinS.s0 (chainFrom [LinS.s0, LinS.s1] LinS.s2)
      (some ⟨LinS.s2, [LinS.s0, LinS.s1], []⟩, ["2", "1", "0\n\n1\n\n"],
        [LinS.s1, LinS.s2], [LinS.s0, LinS.s1, LinS.s2])).2 rfl

/-- Counterexample to C4 as stated: on the cyclic puzzle `CycP`
(`r -> e -> r` is a cycle), the depth-first solver returns the chain
`r, e, r, g` -- the root configuration `r` sits in two created nodes -- and
the breadth-first solver places configurations into created nodes with the
multiset `r, e, g, r, e, g`, again containing `r` (and `e`, `g`) twice. -/
theorem dedup_counterexample :
    depth_first_solve CycP 9 CycS.r =
      some (some (chainFrom [CycS.r, CycS.e, CycS.r] CycS.g)) ∧
    chainConfigs (chainFrom [CycS.r, CycS.e, CycS.r] CycS.g) =
      [CycS.r, CycS.e, CycS.r, CycS.g] ∧
    ([CycS.r, CycS.e, CycS.r, CycS.g].count CycS.r = 2 ∧
      ¬ ([CycS.r, CycS.e, CycS.r, CycS.g] : List CycS).Nodup) ∧
    (helper_bfsT CycP 9 CycS.r).map (fun w => w.2.2.2) =
      some [CycS.r, CycS.e, CycS.g, CycS.r, CycS.e, CycS.g] ∧
    ([CycS.r, CycS.e, CycS.g, CycS.r, CycS.e, CycS.g].count CycS.r = 2 ∧
      ¬ ([CycS.r, CycS.e, CycS.g, CycS.r, CycS.e, CycS.g] : List CycS).Nodup) :=
  ⟨rfl, rfl, by decide, rfl, by decide⟩

/-- C5 exhibit: `_helper_bfs` records `str(first_node)` -- the node
rendering, which differs from the root configuration's key -- so the root's
key starts unvisited, and on the cyclic puzzle the root configuration is
later marked (hence expanded and enqueued) again when rediscovered as an
extension of `e`. -/
theorem root_key_not_recorded :
    initNodeStr CycP CycS.r ≠ CycP.render CycS.r ∧
    CycP.render CycS.r ∉ [initNodeStr CycP CycS.r] ∧
    (helper_bfsT CycP 9 CycS.r).map (fun w => w.2.2.1) =
      some [CycS.e, CycS.g, CycS.r] ∧
    CycS.r ∈ [CycS.e, CycS.g, CycS.r] :=
  ⟨by decide, by decide, rfl, by decide⟩

/-- The `seen` set that results from making the recursive calls recorded in a
trace, starting from `s0` (each call pushes its key). -/
def traceFold {α : Type} (P : Puzzle α) (s0 : List String)
    (tr : List (α × List String)) : List String :=
  tr.foldl (fun s e => P.render e.1 :: s) s0

/-- A well-formed call trace starting from visited set `s`: each recorded
call received exactly the previous `seen` with its own key pushed on top,
and that key was not yet visited. -/
def goodTrace {α : Type} (P : Puzzle α) : List String → List (α × List String) → Prop
  | _, [] => True
  | s, (x, sIn) :: rest =>
    sIn = P.render x :: s ∧ P.render x ∉ s ∧ goodTrace P (P.render x :: s) rest

/-- Well-formed traces compose. -/
theorem goodTrace_append {α : Type} (P : Puzzle α) :
    ∀ (A B : List (α × List String)) (s : List String),
      goodTrace P s A → goodTrace P (traceFold P s A) B → goodTrace P s (A ++ B) := by
  intro A
  induction A with
  | nil => intro B s _ hB; exact hB
  | cons a A ih =>
    intro B s hA hB
    obtain ⟨x, sIn⟩ := a
    obtain ⟨h1, h2, h3⟩ := hA
    exact ⟨h1, h2, ih B (P.render x :: s) h3 hB⟩

/-- The extension loop part of the trace invariant: on any completed loop the
new trace entries form a well-formed trace from the entry `seen`, and the
final `seen` is exactly the fold of the new entries, provided the recursive
calls satisfy the same invariant. -/
theorem dfsLoop_trace {α : Type} (P : Puzzle α)
    (recur : α → List String → List (α × List String) →
      Option (Option (PNode α) × List String × List (α × List String)))
    (hrec : ∀ x s t r s' t', recur x s t = some (r, s', t') →
      ∃ tnew, t' = t ++ tnew ∧ s' = traceFold P s tnew ∧ goodTrace P s tnew) :
    ∀ (xs : List α) (p : α) (seen : List String) (tr : List (α × List String))
      (r : Option (PNode α)) (seen' : List String) (tr' : List (α × List String)),
      dfsLoop P recur p xs seen tr = some (r, seen', tr') →
      ∃ tnew, tr' = tr ++ tnew ∧ seen' = traceFold P seen tnew ∧
        goodTrace P seen tnew := by
  intro xs
  induction xs with
  | nil =>
    intro p seen tr r seen' tr' h
    simp only [dfsLoop, Option.some.injEq, Prod.mk.injEq] at h
    exact ⟨[], by simp [h.2.1, h.2.2, traceFold, goodTrace]⟩
  | cons x rest ih =>
    intro p seen tr r seen' tr' h
    rw [dfsLoop] at h
    split at h
    · exact ih p seen tr r seen' tr' h
    next hx =>
      split at h
      next => exact absurd h (by simp)
      next node2 seen2 tr2 heq =>
        simp only [Option.some.injEq, Prod.mk.injEq] at h
        obtain ⟨-, h2, h3⟩ := h
        subst h2 h3
        obtain ⟨tnewA, a1, a2, a3⟩ := hrec _ _ _ _ _ _ heq
        refine ⟨(x, P.render x :: seen) :: tnewA, ?_, ?_, rfl, hx, a3⟩
        · rw [a1, List.append_assoc]
          rfl
        · exact a2
      next seen2 tr2 heq =>
        obtain ⟨tnewA, a1, a2, a3⟩ := hrec _ _ _ _ _ _ heq
        obtain ⟨tnewB, b1, b2, b3⟩ := ih p seen2 tr2 r seen' tr' h
        refine ⟨(x, P.render x :: seen) :: (tnewA ++ tnewB), ?_, ?_, rfl, hx, ?_⟩
        · rw [b1, a1]
          simp
        · rw [b2, a2]
          simp [traceFold, List.foldl_append]
        · refine goodTrace_append P tnewA tnewB (P.render x :: seen) a3 ?_
          rw [← a2]
          exact b3

/-- The `_helper_dfs` trace invariant: the calls recorded beyond the entry
trace form a well-formed trace from the entry `seen`, whose fold is the
final `seen`. -/
theorem helper_dfs_trace {α : Type} (P : Puzzle α) :
    ∀ (fuel : Nat) (p : α) (seen : List String) (tr : List (α × List String))
      (r : Option (PNode α)) (seen' : List String) (tr' : List (α × List String)),
      helper_dfsT P fuel p seen tr = some (r, seen', tr') →
      ∃ tnew, tr' = tr ++ tnew ∧ seen' = traceFold P seen tnew ∧
        goodTrace P seen tnew := by
  intro fuel
  induction fuel with
  | zero =>
    intro p seen tr r seen' tr' h
    simp [helper_dfsT] at h
  | succ f ih =>
    intro p seen tr r seen' tr' h
    rw [helper_dfsT] at h
    split at h
    · simp only [Option.some.injEq, Prod.mk.injEq] at h
      exact ⟨[], by simp [h.2.1, h.2.2, traceFold, goodTrace]⟩
    · split at h
      · simp only [Option.some.injEq, Prod.mk.injEq] at h
        exact ⟨[], by simp [h.2.1, h.2.2, traceFold, goodTrace]⟩
      · exact dfsLoop_trace P (helper_dfsT P f)
          (fun x s t r' s' t' hx => ih x s t r' s' t' hx)
          (P.extensions p) p seen tr r seen' tr' h

/-- Every entry of a well-formed trace received the previous visited set
with its own, previously unvisited key pushed on top. -/
theorem goodTrace_mem {α : Type} (P : Puzzle α) :
    ∀ (tr : List (α × List String)) (s : List String), goodTrace P s tr →
      ∀ e ∈ tr, ∃ sb, e.2 = P.render e.1 :: sb ∧ P.render e.1 ∉ sb := by
  intro tr
  induction tr with
  | nil => intro s _ e he; simp at he
  | cons a tr ih =>
    intro s hg e he
    obtain ⟨x, sIn⟩ := a
    obtain ⟨h1, h2, h3⟩ := hg
    rw [List.mem_cons] at he
    rcases he with rfl | he
    · exact ⟨s, h1, h2⟩
    · exact ih (P.render x :: s) h3 e he

/-- The starting visited set is contained in every entry's received set. -/
theorem goodTrace_sub {α : Type} (P : Puzzle α) :
    ∀ (tr : List (α × List String)) (s : List String), goodTrace P s tr →
      ∀ e ∈ tr, s ⊆ e.2 := by
  intro tr
  induction tr with
  | nil => intro s _ e he; simp at he
  | cons a tr ih =>
    intro s hg e he
    obtain ⟨x, sIn⟩ := a
    obtain ⟨h1, h2, h3⟩ := hg
    rw [List.mem_cons] at he
    rcases he with rfl | he
    · rw [h1]; exact List.subset_cons_self _ _
    · exact (List.subset_cons_self _ _).trans (ih (P.render x :: s) h3 e he)

/-- The keys of a well-formed trace are pairwise distinct and all start
unvisited. -/
theorem goodTrace_nodup {α : Type} (P : Puzzle α) :
    ∀ (tr : List (α × List String)) (s : List String), goodTrace P s tr →
      (tr.map (fun e => P.render e.1)).Nodup ∧ ∀ e ∈ tr, P.render e.1 ∉ s := by
  intro tr
  induction tr with
  | nil => intro s _; simp
  | cons a tr ih =>
    intro s hg
    obtain ⟨x, sIn⟩ := a
    obtain ⟨h1, h2, h3⟩ := hg
    obtain ⟨ihn, ihf⟩ := ih (P.render x :: s) h3
    constructor
    · refine List.nodup_cons.mpr ⟨?_, ihn⟩
      intro hmem
      obtain ⟨e, hem, heq⟩ := List.mem_map.mp hmem
      exact ihf e hem (heq ▸ List.mem_cons_self _ _)
    · intro e he
      rw [List.mem_cons] at he
      rcases he with rfl | he
      · exact h2
      · exact fun hmem => ihf e he (List.mem_cons_of_mem _ hmem)

/-- Each earlier call's key is in every later call's received visited set. -/
theorem goodTrace_pairwise {α : Type} (P : Puzzle α) :
    ∀ (tr : List (α × List String)) (s : List String), goodTrace P s tr →
      tr.Pairwise (fun a b => P.render a.1 ∈ b.2) := by
  intro tr
  induction tr with
  | nil => intro s _; exact List.Pairwise.nil
  | cons a tr ih =>
    intro s hg
    obtain ⟨x, sIn⟩ := a
    obtain ⟨h1, h2, h3⟩ := hg
    refine List.Pairwise.cons ?_ (ih (P.render x :: s) h3)
    intro e he
    exact goodTrace_sub P tr (P.render x :: s) h3 e he (List.mem_cons_self _ _)

/-- C6: in a `depth_first_solve` run (empty initial visited set), every
recursive call on an extension received the visited set with that
extension's key already added on top (added *before* the call) and
previously absent; no key is recursed on twice -- the call keys are pairwise
distinct -- and each earlier call's key is still in every later call's
visited set, so a configuration whose key entered the set is never recursed
on again by any later call, whatever path rediscovers it. -/
theorem dfs_visit_discipline {α : Type} (P : Puzzle α) (fuel : Nat) (root : α)
    (r : Option (PNode α)) (seen' : List String) (tr : List (α × List String))
    (h : helper_dfsT P fuel root [] [] = some (r, seen', tr)) :
    (∀ e ∈ tr, ∃ sb, e.2 = P.render e.1 :: sb ∧ P.render e.1 ∉ sb) ∧
    (tr.map (fun e => P.render e.1)).Nodup ∧
    tr.Pairwise (fun a b => P.render a.1 ∈ b.2) := by
  obtain ⟨tnew, h1, h2, h3⟩ := helper_dfs_trace P fuel root [] [] r seen' tr h
  rw [List.nil_append] at h1
  subst h1
  exact ⟨goodTrace_mem P tr [] h3, (goodTrace_nodup P tr [] h3).1,
    goodTrace_pairwise P tr [] h3⟩

/-- Witness for C6 on the cyclic puzzle's depth-first run: calls on `e`, `r`
and `g`, all keys pairwise distinct, each earlier key visible to each later
call. -/
theorem dfs_visit_discipline_witness :
    ([(CycS.e, ["e"]), (CycS.r, ["r", "e"]),
      (CycS.g, ["g", "r", "e"])].map (fun e => CycP.render e.1)).Nodup ∧
    [(CycS.e, ["e"]), (CycS.r, ["r", "e"]),
      (CycS.g, ["g", "r", "e"])].Pairwise (fun a b => CycP.render a.1 ∈ b.2) :=
  ⟨(dfs_visit_discipline CycP 9 CycS.r
      (some (chainFrom [CycS.r, CycS.e, CycS.r] CycS.g)) ["g", "r", "e"]
      [(CycS.e, ["e"]), (CycS.r, ["r", "e"]), (CycS.g, ["g", "r", "e"])] rfl).2.1,
    (dfs_visit_discipline CycP 9 CycS.r
      (some (chainFrom [CycS.r, CycS.e, CycS.r] CycS.g)) ["g", "r", "e"]
      [(CycS.e, ["e"]), (CycS.r, ["r", "e"]), (CycS.g, ["g", "r", "e"])] rfl).2.2⟩

/-- Reachability composes. -/
theorem reach_trans {α : Type} (P : Puzzle α) {p x a : α}
    (h1 : Reach P p x) (h2 : Reach P x a) : Reach P p a := by
  induction h2 with
  | refl => exact h1
  | step _ hb ih => exact Reach.step ih hb

/-- If the extension loop returns a tree, some configuration reachable from
the expanded one is solved (the loop only tries members of `xs`, which are
required to be extensions of `p`). -/
theorem dfsLoop_solved_reachable {α : Type} (P : Puzzle α)
    (recur : α → List String → List (α × List String) →
      Option (Option (PNode α) × List String × List (α × List String)))
    (hrec : ∀ x s t node s' t', recur x s t = some (some node, s', t') →
      ∃ a, Reach P x a ∧ P.is_solved a = true) :
    ∀ (xs : List α) (p : α) (seen : List String) (tr : List (α × List String))
      (node : PNode α) (seen' : List String) (tr' : List (α × List String)),
      (∀ x ∈ xs, x ∈ P.extensions p) →
      dfsLoop P recur p xs seen tr = some (some node, seen', tr') →
      ∃ a, Reach P p a ∧ P.is_solved a = true := by
  intro xs
  induction xs with
  | nil =>
    intro p seen tr node seen' tr' _ h
    simp [dfsLoop] at h
  | cons x rest ih =>
    intro p seen tr node seen' tr' hxs h
    rw [dfsLoop] at h
    split at h
    · exact ih p seen tr node seen' tr'
        (fun y hy => hxs y (List.mem_cons_of_mem _ hy)) h
    · split at h
      next => exact absurd h (by simp)
      next node2 seen2 tr2 heq =>
        obtain ⟨a, hra, hsa⟩ := hrec _ _ _ _ _ _ heq
        exact ⟨a, reach_trans P
          (Reach.step Reach.refl (hxs x (List.mem_cons_self _ _))) hra, hsa⟩
      next seen2 tr2 heq =>
        exact ih p seen2 tr2 node seen' tr'
          (fun y hy => hxs y (List.mem_cons_of_mem _ hy)) h

/-- If `_helper_dfs` returns a tree, some configuration reachable from the
searched one is solved. -/
theorem helper_dfs_solved_reachable {α : Type} (P : Puzzle α) :
    ∀ (fuel : Nat) (p : α) (seen : List String) (tr : List (α × List String))
      (node : PNode α) (seen' : List String) (tr' : List (α × List String)),
      helper_dfsT P fuel p seen tr = some (some node, seen', tr') →
      ∃ a, Reach P p a ∧ P.is_solved a = true := by
  intro fuel
  induction fuel with
  | zero =>
    intro p seen tr node seen' tr' h
    simp [helper_dfsT] at h
  | succ f ih =>
    intro p seen tr node seen' tr' h
    rw [helper_dfsT] at h
    split at h
    next hs => exact ⟨p, Reach.refl, hs⟩
    · split at h
      next => exact absurd h (by simp)
      next =>
        exact dfsLoop_solved_reachable P (helper_dfsT P f)
          (fun x s t n s' t' hx => ih x s t n s' t' hx)
          (P.extensions p) p seen tr node seen' tr' (fun y hy => hy) h

/-- The number of keys of `K` occurring in a visited list. -/
def seenCard (K : Finset String) (seen : List String) : Nat :=
  (seen.toFinset ∩ K).card

/-- Adding one fresh key of `K` grows the visited count by one. -/
theorem seenCard_cons {K : Finset String} {seen : List String} {k : String}
    (hk : k ∈ K) (hfresh : k ∉ seen) :
    seenCard K (k :: seen) = seenCard K seen + 1 := by
  unfold seenCard
  rw [List.toFinset_cons, Finset.insert_inter_of_mem hk,
    Finset.card_insert_of_not_mem]
  intro hmem
  exact hfresh (List.mem_toFinset.mp (Finset.mem_of_mem_inter_left hmem))

/-- The visited count never exceeds the size of the key pool. -/
theorem seenCard_le (K : Finset String) (seen : List String) :
    seenCard K seen ≤ K.card :=
  Finset.card_le_card (Finset.inter_subset_right)

/-- The visited count is monotone in the visited list. -/
theorem seenCard_mono {K : Finset String} {s s' : List String} (h : s ⊆ s') :
    seenCard K s ≤ seenCard K s' :=
  Finset.card_le_card
    (Finset.inter_subset_inter (fun _ hk =>
      List.mem_toFinset.mpr (h (List.mem_toFinset.mp hk))) (Finset.Subset.refl _))

/-- Fuel adequacy for the extension loop: if all roots of recursion are
reachable, each recursive call succeeds once its measure fits under the
budget, and the loop's own measure does, the loop never runs out of fuel. -/
theorem dfsLoop_adequate {α : Type} (P : Puzzle α) (root : α) (K : Finset String)
    (hK : ∀ a, Reach P root a → P.render a ∈ K) (f : Nat)
    (hrec : ∀ p s t, Reach P root p → K.card - seenCard K s < f →
      helper_dfsT P f p s t ≠ none) :
    ∀ (xs : List α) (p : α) (seen : List String) (tr : List (α × List String)),
      (∀ x ∈ xs, Reach P root x) → K.card - seenCard K seen ≤ f →
      dfsLoop P (helper_dfsT P f) p xs seen tr ≠ none := by
  intro xs
  induction xs with
  | nil =>
    intro p seen tr _ _
    simp [dfsLoop]
  | cons x rest ih =>
    intro p seen tr hxs hm
    rw [dfsLoop]
    split
    · exact ih p seen tr (fun y hy => hxs y (List.mem_cons_of_mem _ hy)) hm
    next hx =>
      have hreach : Reach P root x := hxs x (List.mem_cons_self _ _)
      have hkey : P.render x ∈ K := hK x hreach
      have hcons : seenCard K (P.render x :: seen) = seenCard K seen + 1 :=
        seenCard_cons hkey hx
      have hle : seenCard K (P.render x :: seen) ≤ K.card :=
        seenCard_le K _
      have hsub : K.card - seenCard K (P.render x :: seen) < f := by omega
      cases heq : helper_dfsT P f x (P.render x :: seen)
          (tr ++ [(x, P.render x :: seen)]) with
      | none => exact absurd heq (hrec x _ _ hreach hsub)
      | some val =>
        obtain ⟨res, s2, t2⟩ := val
        cases res with
        | some node => simp
        | none =>
          have hmono : (P.render x :: seen) ⊆ s2 :=
            helper_dfs_seen_mono P f x _ _ _ _ _ heq
          have : seenCard K seen + 1 ≤ seenCard K s2 := by
            rw [← hcons]
            exact seenCard_mono hmono
          exact ih p s2 t2 (fun y hy => hxs y (List.mem_cons_of_mem _ hy))
            (by omega)

/-- Fuel adequacy for `_helper_dfs`: with a finite key pool covering the
reachable graph, a budget exceeding the number of unvisited keys never runs
out. -/
theorem helper_dfs_adequate {α : Type} (P : Puzzle α) (root : α) (K : Finset String)
    (hK : ∀ a, Reach P root a → P.render a ∈ K) :
    ∀ (fuel : Nat) (p : α) (seen : List String) (tr : List (α × List String)),
      Reach P root p → K.card - seenCard K seen < fuel →
      helper_dfsT P fuel p seen tr ≠ none := by
  intro fuel
  induction fuel with
  | zero =>
    intro p seen tr _ hm
    exact absurd hm (by omega)
  | succ f ih =>
    intro p seen tr hreach hm
    rw [helper_dfsT]
    split
    · simp
    · split
      · simp
      · exact dfsLoop_adequate P root K hK f
          (fun p' s t hr hmm => ih p' s t hr hmm)
          (P.extensions p) p seen tr
          (fun y hy => Reach.step hreach hy) (by omega)

/-- Queue invariant for soundness and termination: every queued node's
configuration is reachable and its child list was precomputed from its
extensions. -/
def QReach {α : Type} (P : Puzzle α) (root : α) (Q : List (BEntry α)) : Prop :=
  ∀ e ∈ Q, Reach P root e.cur ∧ e.kids = P.extensions e.cur

/-- One expansion step preserves the queue invariant. -/
theorem QReach_step {α : Type} (P : Puzzle α) (root : α) {e : BEntry α}
    {q : List (BEntry α)} {seen : List String} {mk cr : List α}
    (hq : QReach P root (e :: q)) :
    QReach P root (processKidsT P e.kids (e.pre ++ [e.cur]) q seen mk cr).1 := by
  obtain ⟨newE, k1, -, -, k4, -, -⟩ :=
    processKidsT_spec P e.kids (e.pre ++ [e.cur]) q seen mk cr
  rw [k1]
  intro e2 he2
  rw [List.mem_append] at he2
  rcases he2 with he2 | he2
  · exact hq e2 (List.mem_cons_of_mem _ he2)
  · obtain ⟨-, hkids, hcur, -⟩ := k4 e2 he2
    have hreach := (hq e (List.mem_cons_self _ _)).1
    have hext := (hq e (List.mem_cons_self _ _)).2
    exact ⟨Reach.step hreach (hext ▸ hcur), hkids⟩

/-- If the breadth-first loop returns an entry, that entry's configuration is
solved and reachable. -/
theorem bfsLoopT_solved_reachable {α : Type} (P : Puzzle α) (root : α) :
    ∀ (fuel : Nat) (Q : List (BEntry α)) (seen : List String) (mk cr : List α)
      (e' : BEntry α) (s' : List String) (mk' cr' : List α),
      QReach P root Q →
      bfsLoopT P fuel Q seen mk cr = some (some e', s', mk', cr') →
      P.is_solved e'.cur = true ∧ Reach P root e'.cur := by
  intro fuel
  induction fuel with
  | zero =>
    intro Q seen mk cr e' s' mk' cr' _ h
    simp [bfsLoopT] at h
  | succ f ih =>
    intro Q seen mk cr e' s' mk' cr' hq h
    match Q with
    | [] => simp [bfsLoopT] at h
    | e :: q =>
      rw [bfsLoopT] at h
      split at h
      next hns =>
        split at h
        · replace h : bfsLoopT P f
              (processKidsT P e.kids (e.pre ++ [e.cur]) q seen mk cr).1
              (processKidsT P e.kids (e.pre ++ [e.cur]) q seen mk cr).2.1
              (processKidsT P e.kids (e.pre ++ [e.cur]) q seen mk cr).2.2.1
              (processKidsT P e.kids (e.pre ++ [e.cur]) q seen mk cr).2.2.2 =
              some (some e', s', mk', cr') := h
          exact ih _ _ _ _ e' s' mk' cr' (QReach_step P root hq) h
        · exact ih q seen mk cr e' s' mk' cr'
            (fun e2 he2 => hq e2 (List.mem_cons_of_mem _ he2)) h
      next hns =>
        simp only [Option.some.injEq, Prod.mk.injEq] at h
        obtain ⟨rfl, -⟩ := h
        refine ⟨?_, (hq e (List.mem_cons_self _ _)).1⟩
        revert hns
        cases P.is_solved e.cur <;> simp

/-- Adding a block of distinct fresh keys of `K` grows the visited count by
the block length. -/
theorem seenCard_fresh_append {K : Finset String} :
    ∀ (newK : List String) (seen : List String),
      newK.Nodup → (∀ k ∈ newK, k ∉ seen) → (∀ k ∈ newK, k ∈ K) →
      seenCard K (newK ++ seen) = seenCard K seen + newK.length := by
  intro newK
  induction newK with
  | nil => intro seen _ _ _; simp
  | cons k rest ih =>
    intro seen hnd hfresh hmem
    have hk1 : k ∈ K := hmem k (List.mem_cons_self _ _)
    have hk2 : k ∉ rest ++ seen := by
      rw [List.mem_append]
      rintro (hk | hk)
      · exact (List.nodup_cons.mp hnd).1 hk
      · exact hfresh k (List.mem_cons_self _ _) hk
    rw [List.cons_append, seenCard_cons hk1 hk2,
      ih seen (List.nodup_cons.mp hnd).2
        (fun y hy => hfresh y (List.mem_cons_of_mem _ hy))
        (fun y hy => hmem y (List.mem_cons_of_mem _ hy))]
    simp only [List.length_cons]
    omega

/-- Fuel adequacy for the breadth-first loop: the measure (queue length plus
unvisited keys of the pool) drops by at least one per iteration, so a budget
above it never runs out. -/
theorem bfsLoopT_adequate {α : Type} (P : Puzzle α) (root : α) (K : Finset String)
    (hK : ∀ a, Reach P root a → P.render a ∈ K) :
    ∀ (fuel : Nat) (Q : List (BEntry α)) (seen : List String) (mk cr : List α),
      QReach P root Q →
      Q.length + (K.card - seenCard K seen) < fuel →
      bfsLoopT P fuel Q seen mk cr ≠ none := by
  intro fuel
  induction fuel with
  | zero =>
    intro Q seen mk cr _ hm
    exact absurd hm (by omega)
  | succ f ih =>
    intro Q seen mk cr hq hm
    match Q with
    | [] => simp [bfsLoopT]
    | e :: q =>
      rw [bfsLoopT]
      split
      · split
        · obtain ⟨newE, k1, k2, -, k4, k5, -⟩ :=
            processKidsT_spec P e.kids (e.pre ++ [e.cur]) q seen mk cr
          have hlen : (processKidsT P e.kids (e.pre ++ [e.cur]) q seen mk cr).1.length
              = q.length + newE.length := by rw [k1, List.length_append]
          have hcard : seenCard K
              (processKidsT P e.kids (e.pre ++ [e.cur]) q seen mk cr).2.1 =
              seenCard K seen + newE.length := by
            rw [k2]
            have := seenCard_fresh_append
              ((newE.map (fun e2 => P.render e2.cur)).reverse) seen
              (by rw [List.nodup_reverse]; exact k5)
              (by
                intro k hk
                rw [List.mem_reverse] at hk
                obtain ⟨e2, he2, heq⟩ := List.mem_map.mp hk
                exact heq ▸ (k4 e2 he2).2.2.2)
              (by
                intro k hk
                rw [List.mem_reverse] at hk
                obtain ⟨e2, he2, heq⟩ := List.mem_map.mp hk
                have hreach : Reach P root e2.cur := by
                  have hcur := (k4 e2 he2).2.2.1
                  have he := hq e (List.mem_cons_self _ _)
                  exact Reach.step he.1 (he.2 ▸ hcur)
                exact heq ▸ hK e2.cur hreach)
            rw [this, List.length_reverse, List.length_map]
          have hle : seenCard K
              (processKidsT P e.kids (e.pre ++ [e.cur]) q seen mk cr).2.1 ≤
              K.card := seenCard_le K _
          refine ih _ _ _ _ (QReach_step P root hq) ?_
          rw [hlen, hcard] at *
          simp only [List.length_cons] at hm
          omega
        · refine ih q seen mk cr
            (fun e2 he2 => hq e2 (List.mem_cons_of_mem _ he2)) ?_
          simp only [List.length_cons] at hm
          omega
      · simp

/-- C7: if a finite key pool `K` covers every reachable configuration's key
and no reachable configuration is solved, then -- for any budget exceeding
`K.card + 1` -- both solvers terminate normally (the fuel is not exhausted)
and return the distinguishable no-solution value. -/
theorem exhausted_search_returns_none {α : Type} (P : Puzzle α) (root : α)
    (K : Finset String) (fuel : Nat)
    (hK : ∀ a, Reach P root a → P.render a ∈ K)
    (hns : ∀ a, Reach P root a → P.is_solved a = false)
    (hfuel : K.card + 2 ≤ fuel) :
    depth_first_solve P fuel root = some none ∧
    breadth_first_solve P fuel root = some none := by
  constructor
  · have hne : helper_dfsT P fuel root [] [] ≠ none :=
      helper_dfs_adequate P root K hK fuel root [] [] Reach.refl
        (by have := seenCard_le K ([] : List String); omega)
    cases heq : helper_dfsT P fuel root [] [] with
    | none => exact absurd heq hne
    | some val =>
      obtain ⟨res, s', tr'⟩ := val
      cases res with
      | some node =>
        obtain ⟨a, hra, hsa⟩ :=
          helper_dfs_solved_reachable P fuel root [] [] node s' tr' heq
        rw [hns a hra] at hsa
        exact absurd hsa (by simp)
      | none =>
        unfold depth_first_solve
        rw [heq]
  · have hq : QReach P root [⟨root, [], P.extensions root⟩] := by
      intro e he
      rw [List.mem_singleton] at he
      subst he
      exact ⟨Reach.refl, rfl⟩
    have hne : bfsLoopT P fuel [⟨root, [], P.extensions root⟩]
        [initNodeStr P root] [] (root :: P.extensions root) ≠ none :=
      bfsLoopT_adequate P root K hK fuel _ _ _ _ hq
        (by
          have := seenCard_le K [initNodeStr P root]
          simp only [List.length_singleton]
          omega)
    cases heq : bfsLoopT P fuel [⟨root, [], P.extensions root⟩]
        [initNodeStr P root] [] (root :: P.extensions root) with
    | none => exact absurd heq hne
    | some val =>
      obtain ⟨res, s', mk', cr'⟩ := val
      cases res with
      | some e' =>
        obtain ⟨hsa, hra⟩ :=
          bfsLoopT_solved_reachable P root fuel _ _ _ _ e' s' mk' cr' hq heq
        rw [hns e'.cur hra] at hsa
        exact absurd hsa (by simp)
      | none =>
        unfold breadth_first_solve helper_bfsT
        rw [heq]

/-- Witness for C7: the unsolvable two-state cycle with key pool of size two
makes both solvers return the no-solution value under budget 4. -/
theorem exhausted_search_returns_none_witness :
    depth_first_solve ABP 4 ABS.a = some none ∧
    breadth_first_solve ABP 4 ABS.a = some none :=
  exhausted_search_returns_none ABP ABS.a {"A", "B"} 4
    (fun s _ => by cases s <;> decide)
    (fun _ _ => rfl)
    (by decide)

/-- Writing one cell never changes the row-length profile of a tile grid. -/
theorem map_length_mnSet :
    ∀ (g : List (List String)) (i j : Nat) (c : String),
      (mnSet g i j c).map List.length = g.map List.length := by
  intro g
  induction g with
  | nil => intro i j c; rfl
  | cons r g ih =>
    intro i j c
    cases i with
    | zero => simp [mnSet]
    | succ i =>
      show List.map List.length
        ((r :: g).set (i + 1) (((r :: g).getD (i + 1) []).set j c)) = _
      rw [List.getD_cons_succ, List.set_cons_succ, List.map_cons, List.map_cons]
      have := ih i j c
      rw [mnSet] at this
      rw [this]

/-- A blank swap never changes the row-length profile. -/
theorem map_length_mnSwap (g : List (List String)) (i j i' j' : Nat) :
    (mnSwap g i j i' j').map List.length = g.map List.length := by
  unfold mnSwap
  rw [map_length_mnSet, map_length_mnSet]

/-- Any row read out of a single-character-tile grid has single-character
tiles (an out-of-bounds read gives the empty row). -/
theorem cellsLen1_getD :
    ∀ (g : List (List String)) (i : Nat), CellsLen1 g →
      ∀ c ∈ g.getD i [], c.length = 1 := by
  intro g
  induction g with
  | nil =>
    intro i _ c hc
    cases i <;> simp at hc
  | cons r g ih =>
    intro i hg c hc
    cases i with
    | zero =>
      rw [List.getD_cons_zero] at hc
      exact hg r (List.mem_cons_self _ _) c hc
    | succ i =>
      rw [List.getD_cons_succ] at hc
      exact ih i (fun row hrow => hg row (List.mem_cons_of_mem _ hrow)) c hc

/-- Any cell read out of a single-character row is a single character (the
default `"*"` included). -/
theorem rowLen1_getD :
    ∀ (r : List String) (j : Nat), (∀ c ∈ r, c.length = 1) →
      (r.getD j "*").length = 1 := by
  intro r
  induction r with
  | nil =>
    intro j _
    rw [List.getD_nil]
    decide
  | cons c r ih =>
    intro j hr
    cases j with
    | zero =>
      rw [List.getD_cons_zero]
      exact hr c (List.mem_cons_self _ _)
    | succ j =>
      rw [List.getD_cons_succ]
      exact ih j (fun d hd => hr d (List.mem_cons_of_mem _ hd))

/-- Reading a cell of a single-character-tile grid yields one character. -/
theorem mnCell_len1 {g : List (List String)} (hg : CellsLen1 g) (i j : Nat) :
    (mnCell g i j).length = 1 :=
  rowLen1_getD _ j (cellsLen1_getD g i hg)

/-- Writing a single-character tile preserves the tile-width invariant. -/
theorem cellsLen1_mnSet {g : List (List String)} {c : String}
    (hg : CellsLen1 g) (hc : c.length = 1) (i j : Nat) :
    CellsLen1 (mnSet g i j c) := by
  intro row hrow d hd
  unfold mnSet at hrow
  rcases List.mem_or_eq_of_mem_set hrow with hrow | rfl
  · exact hg row hrow d hd
  · rcases List.mem_or_eq_of_mem_set hd with hd | rfl
    · exact cellsLen1_getD g i hg d hd
    · exact hc

/-- A blank swap preserves the tile-width invariant. -/
theorem cellsLen1_mnSwap {g : List (List String)} (hg : CellsLen1 g)
    (i j i' j' : Nat) : CellsLen1 (mnSwap g i j i' j') :=
  cellsLen1_mnSet (cellsLen1_mnSet hg (mnCell_len1 hg i' j') i j) (by decide) i' j'

/-- Every configuration produced by `MNPuzzle.extensions` keeps the target
grid, the row-length profile of the current grid, and the tile-width
invariant. -/
theorem mnExtensions_mem {p q : MNPuzzle} (hq : q ∈ mnExtensions p) :
    q.to_grid = p.to_grid ∧
    q.from_grid.map List.length = p.from_grid.map List.length ∧
    (CellsLen1 p.from_grid → CellsLen1 q.from_grid) := by
  unfold mnExtensions at hq
  simp only [List.mem_flatMap, List.mem_range] at hq
  obtain ⟨i, hi, j, hj, hq⟩ := hq
  split at hq
  · rw [List.mem_append, List.mem_append, List.mem_append] at hq
    rcases hq with ((hq | hq) | hq) | hq <;>
    · split at hq
      · rw [List.mem_singleton] at hq
        subst hq
        exact ⟨rfl, map_length_mnSwap _ _ _ _ _,
          fun hc => cellsLen1_mnSwap hc _ _ _ _⟩
      · simp at hq
  · simp at hq

/-- Along reachability, the target grid, the row-length profile and the
tile-width invariant are invariants of the puzzle's state graph. -/
theorem mnReach_invariants {root p : MNPuzzle} (h : MNReach root p) :
    p.to_grid = root.to_grid ∧
    p.from_grid.map List.length = root.from_grid.map List.length ∧
    (CellsLen1 root.from_grid → CellsLen1 p.from_grid) := by
  induction h with
  | refl => exact ⟨rfl, rfl, id⟩
  | step _ hq ih =>
    obtain ⟨h1, h2, h3⟩ := mnExtensions_mem hq
    exact ⟨h1.trans ih.1, h2.trans ih.2.1, fun hc => h3 (ih.2.2 hc)⟩

/-- Two character grids with the same row-length profile and the same
newline-joined rendering are equal (with the lengths known, each character
sits at a fixed position of the joined list). -/
theorem joinRows_inj :
    ∀ (g1 g2 : List (List Char)),
      g1.map List.length = g2.map List.length → joinRows g1 = joinRows g2 →
      g1 = g2 := by
  intro g1
  induction g1 with
  | nil =>
    intro g2 hlen _
    exact (List.map_eq_nil_iff.mp hlen.symm).symm
  | cons r1 t1 ih =>
    intro g2 hlen hj
    cases g2 with
    | nil => exact absurd hlen (by simp)
    | cons r2 t2 =>
      simp only [List.map_cons, List.cons.injEq] at hlen
      obtain ⟨hr, ht⟩ := hlen
      cases t1 with
      | nil =>
        obtain rfl : t2 = [] := List.map_eq_nil_iff.mp ht.symm
        simp only [joinRows] at hj
        rw [hj]
      | cons x1 t1' =>
        cases t2 with
        | nil => exact absurd ht (by simp)
        | cons x2 t2' =>
          simp only [joinRows] at hj
          obtain ⟨hr12, htail⟩ := List.append_inj hj hr
          obtain ⟨-, hj2⟩ := List.cons.injEq _ _ _ _ ▸ htail
          have := ih (x2 :: t2') ht hj2
          rw [hr12, this]

/-- With single-character tiles, a rendered row is one character per tile. -/
theorem rowStr_length :
    ∀ (r : List String), (∀ c ∈ r, c.length = 1) →
      (rowStr r).length = r.length := by
  intro r
  induction r with
  | nil => intro _; rfl
  | cons c t ih =>
    intro hr
    have hc : c.data.length = 1 := hr c (List.mem_cons_self _ _)
    show (c.data ++ rowStr t).length = t.length + 1
    rw [List.length_append, hc, ih (fun d hd => hr d (List.mem_cons_of_mem _ hd))]
    omega

/-- With single-character tiles, the row rendering is injective on rows of
equal tile count: each tile occupies its own fixed character position. -/
theorem rowStr_inj :
    ∀ (r1 r2 : List String), r1.length = r2.length →
      (∀ c ∈ r1, c.length = 1) → (∀ c ∈ r2, c.length = 1) →
      rowStr r1 = rowStr r2 → r1 = r2 := by
  intro r1
  induction r1 with
  | nil =>
    intro r2 hlen _ _ _
    exact (List.length_eq_zero.mp hlen.symm).symm
  | cons c1 t1 ih =>
    intro r2 hlen h1 h2 hs
    cases r2 with
    | nil => simp at hlen
    | cons c2 t2 =>
      simp only [List.length_cons] at hlen
      have hc1 : c1.data.length = 1 := h1 c1 (List.mem_cons_self _ _)
      have hc2 : c2.data.length = 1 := h2 c2 (List.mem_cons_self _ _)
      simp only [rowStr] at hs
      obtain ⟨hd, htl⟩ := List.append_inj hs (hc1.trans hc2.symm)
      rw [String.ext hd,
        ih t2 (by omega) (fun d hdm => h1 d (List.mem_cons_of_mem _ hdm))
          (fun d hdm => h2 d (List.mem_cons_of_mem _ hdm)) htl]

/-- With single-character tiles, rendered row lengths are the tile counts. -/
theorem map_rowStr_length :
    ∀ (g : List (List String)), CellsLen1 g →
      (g.map rowStr).map List.length = g.map List.length := by
  intro g
  induction g with
  | nil => intro _; rfl
  | cons r t ih =>
    intro hg
    simp only [List.map_cons, List.cons.injEq]
    exact ⟨rowStr_length r (hg r (List.mem_cons_self _ _)),
      ih (fun row hrow => hg row (List.mem_cons_of_mem _ hrow))⟩

/-- With single-character tiles and equal row-length profiles, equal rendered
rows force equal grids. -/
theorem map_rowStr_inj :
    ∀ (g1 g2 : List (List String)),
      g1.map List.length = g2.map List.length →
      CellsLen1 g1 → CellsLen1 g2 →
      g1.map rowStr = g2.map rowStr → g1 = g2 := by
  intro g1
  induction g1 with
  | nil =>
    intro g2 hlen _ _ _
    exact (List.map_eq_nil_iff.mp hlen.symm).symm
  | cons r1 t1 ih =>
    intro g2 hlen hc1 hc2 hmap
    cases g2 with
    | nil => exact absurd hlen (by simp)
    | cons r2 t2 =>
      simp only [List.map_cons, List.cons.injEq] at hlen hmap
      rw [rowStr_inj r1 r2 hlen.1 (hc1 r1 (List.mem_cons_self _ _))
            (hc2 r2 (List.mem_cons_self _ _)) hmap.1,
        ih t2 hlen.2 (fun row hrow => hc1 row (List.mem_cons_of_mem _ hrow))
          (fun row hrow => hc2 row (List.mem_cons_of_mem _ hrow)) hmap.2]

/-- C10 (amended): `MNPuzzle.extensions` always carries `to_grid` over
unchanged, and -- for roots whose tiles are single characters, as in every
driver and doctest of the repository -- equality of canonical keys (the
rendering, which displays only `from_grid`) implies value equality among
configurations reachable from one root.  With multi-character tiles the
implication fails (see the counterexample). -/
theorem mn_key_equality (p0 root p q : MNPuzzle) :
    (∀ e ∈ mnExtensions p0, e.to_grid = p0.to_grid) ∧
    (CellsLen1 root.from_grid → MNReach root p → MNReach root q →
      mnStr p = mnStr q → p = q) := by
  constructor
  · intro e he
    exact (mnExtensions_mem he).1
  · intro hcells hp hq hkey
    obtain ⟨hpt, hps, hpc⟩ := mnReach_invariants hp
    obtain ⟨hqt, hqs, hqc⟩ := mnReach_invariants hq
    have hpc1 := hpc hcells
    have hqc1 := hqc hcells
    have hdata : (mnStr p).data = (mnStr q).data := by rw [hkey]
    simp only [mnStr] at hdata
    have hjoin : joinRows (p.from_grid.map rowStr) =
        joinRows (q.from_grid.map rowStr) :=
      List.append_cancel_right hdata
    have hprof : (p.from_grid.map rowStr).map List.length =
        (q.from_grid.map rowStr).map List.length := by
      rw [map_rowStr_length _ hpc1, map_rowStr_length _ hqc1, hps, hqs]
    have hmaps := joinRows_inj _ _ hprof hjoin
    have hfrom := map_rowStr_inj _ _ (hps.trans hqs.symm) hpc1 hqc1 hmaps
    cases p
    cases q
    simp only [MNPuzzle.mk.injEq]
    exact ⟨hfrom, hpt.trans hqt.symm⟩

/-- Witness for C10 (amended): one move of the 1-by-2 single-character
sliding puzzle keeps the target grid, and key equality of two reachable
states gives equality. -/
theorem mn_key_equality_witness :
    (MNPuzzle.mk [["1", "*"]] [["1", "*"]]).to_grid =
      (MNPuzzle.mk [["*", "1"]] [["1", "*"]]).to_grid ∧
    MNPuzzle.mk [["1", "*"]] [["1", "*"]] = MNPuzzle.mk [["1", "*"]] [["1", "*"]] :=
  ⟨(mn_key_equality (MNPuzzle.mk [["*", "1"]] [["1", "*"]])
      (MNPuzzle.mk [["*", "1"]] [["1", "*"]])
      (MNPuzzle.mk [["1", "*"]] [["1", "*"]])
      (MNPuzzle.mk [["1", "*"]] [["1", "*"]])).1
    (MNPuzzle.mk [["1", "*"]] [["1", "*"]]) (by decide),
   (mn_key_equality (MNPuzzle.mk [["*", "1"]] [["1", "*"]])
      (MNPuzzle.mk [["*", "1"]] [["1", "*"]])
      (MNPuzzle.mk [["1", "*"]] [["1", "*"]])
      (MNPuzzle.mk [["1", "*"]] [["1", "*"]])).2
    (by decide)
    (MNReach.step MNReach.refl (by decide))
    (MNReach.step MNReach.refl (by decide)) rfl⟩

/-- A 2-by-3 board with the two-character tiles `11` and `22`: rows
`1,11,*` and `2,22,3`. -/
def mnWide : MNPuzzle :=
  MNPuzzle.mk [["1", "11", "*"], ["2", "22", "3"]] [["1", "11", "*"], ["2", "22", "3"]]

/-- The same board with `1` and `11` exchanged and `2` and `22` exchanged --
an even permutation of the tiles with the blank fixed, reachable from
`mnWide` by fourteen blank moves, rendering identically. -/
def mnWideTwin : MNPuzzle :=
  MNPuzzle.mk [["11", "1", "*"], ["22", "2", "3"]] [["1", "11", "*"], ["2", "22", "3"]]

/-- Counterexample to C10 as stated: with the multi-character tiles the
source permits, two *distinct* configurations reachable from the same root
(`mnWide` itself and `mnWideTwin`, reached by fourteen blank moves) render
identically -- both rows read `111*` and `2223` -- so canonical-key equality
does not imply value equality within one solve call's reachable graph. -/
theorem mn_key_equality_counterexample :
    MNReach mnWide mnWide ∧ MNReach mnWide mnWideTwin ∧
    mnStr mnWide = mnStr mnWideTwin ∧ mnWide ≠ mnWideTwin := by
  refine ⟨MNReach.refl, ?_, rfl, by decide⟩
  have h0 : MNReach mnWide mnWide := MNReach.refl
  have h1 : MNReach mnWide (MNPuzzle.mk [["1", "*", "11"], ["2", "22", "3"]] [["1", "11", "*"], ["2", "22", "3"]]) :=
    MNReach.step h0 (by decide)
  have h2 : MNReach mnWide (MNPuzzle.mk [["1", "22", "11"], ["2", "*", "3"]] [["1", "11", "*"], ["2", "22", "3"]]) :=
    MNReach.step h1 (by decide)
  have h3 : MNReach mnWide (MNPuzzle.mk [["1", "22", "11"], ["*", "2", "3"]] [["1", "11", "*"], ["2", "22", "3"]]) :=
    MNReach.step h2 (by decide)
  have h4 : MNReach mnWide (MNPuzzle.mk [["*", "22", "11"], ["1", "2", "3"]] [["1", "11", "*"], ["2", "22", "3"]]) :=
    MNReach.step h3 (by decide)
  have h5 : MNReach mnWide (MNPuzzle.mk [["22", "*", "11"], ["1", "2", "3"]] [["1", "11", "*"], ["2", "22", "3"]]) :=
    MNReach.step h4 (by decide)
  have h6 : MNReach mnWide (MNPuzzle.mk [["22", "11", "*"], ["1", "2", "3"]] [["1", "11", "*"], ["2", "22", "3"]]) :=
    MNReach.step h5 (by decide)
  have h7 : MNReach mnWide (MNPuzzle.mk [["22", "11", "3"], ["1", "2", "*"]] [["1", "11", "*"], ["2", "22", "3"]]) :=
    MNReach.step h6 (by decide)
  have h8 : MNReach mnWide (MNPuzzle.mk [["22", "11", "3"], ["1", "*", "2"]] [["1", "11", "*"], ["2", "22", "3"]]) :=
    MNReach.step h7 (by decide)
  have h9 : MNReach mnWide (MNPuzzle.mk [["22", "11", "3"], ["*", "1", "2"]] [["1", "11", "*"], ["2", "22", "3"]]) :=
    MNReach.step h8 (by decide)
  have h10 : MNReach mnWide (MNPuzzle.mk [["*", "11", "3"], ["22", "1", "2"]] [["1", "11", "*"], ["2", "22", "3"]]) :=
    MNReach.step h9 (by decide)
  have h11 : MNReach mnWide (MNPuzzle.mk [["11", "*", "3"], ["22", "1", "2"]] [["1", "11", "*"], ["2", "22", "3"]]) :=
    MNReach.step h10 (by decide)
  have h12 : MNReach mnWide (MNPuzzle.mk [["11", "1", "3"], ["22", "*", "2"]] [["1", "11", "*"], ["2", "22", "3"]]) :=
    MNReach.step h11 (by decide)
  have h13 : MNReach mnWide (MNPuzzle.mk [["11", "1", "3"], ["22", "2", "*"]] [["1", "11", "*"], ["2", "22", "3"]]) :=
    MNReach.step h12 (by decide)
  have h14 : MNReach mnWide (MNPuzzle.mk [["11", "1", "*"], ["22", "2", "3"]] [["1", "11", "*"], ["2", "22", "3"]]) :=
    MNReach.step h13 (by decide)
  exact h14

/-- A rebuilt chain has one node per configuration on the parent chain plus
the found node. -/
theorem nodeCount_chainFrom {α : Type} :
    ∀ (l : List α) (a : α), nodeCount (chainFrom l a) = l.length + 1 := by
  intro l
  induction l with
  | nil => intro a; rfl
  | cons x r ih =>
    intro a
    show nodeCount (PNode.mk x [chainFrom r a]) = _
    rw [nodeCount, ih]
    simp only [List.length_cons]
    omega

/-- A solution record can be split: after consuming a prefix of moves, the
remainder is a solution record from the prefix's last configuration. -/
theorem solSeq_append {α : Type} [DecidableEq α] (P : Puzzle α) :
    ∀ (m1 m2 : List α) (s : α), SolSeq P s (m1 ++ m2) = true →
      SolSeq P (m1.getLastD s) m2 = true := by
  intro m1
  induction m1 with
  | nil => intro m2 s h; exact h
  | cons b m1 ih =>
    intro m2 s h
    rw [List.cons_append, SolSeq] at h
    simp only [Bool.and_eq_true] at h
    rw [List.getLastD_cons]
    exact ih m2 b h.2

/-- Any list with an element satisfying `p` splits around the last such
element. -/
theorem exists_last_with_prop {β : Type} (p : β → Prop) :
    ∀ (l : List β), (∃ b ∈ l, p b) →
      ∃ l1 b l2, l = l1 ++ b :: l2 ∧ p b ∧ ∀ b' ∈ l2, ¬ p b' := by
  intro l
  induction l with
  | nil => intro h; simp at h
  | cons x xs ih =>
    intro h
    by_cases hex : ∃ b ∈ xs, p b
    · obtain ⟨l1, b, l2, h1, h2, h3⟩ := ih hex
      exact ⟨x :: l1, b, l2, by rw [h1]; rfl, h2, h3⟩
    · obtain ⟨b, hbm, hbp⟩ := h
      rw [List.mem_cons] at hbm
      rcases hbm with rfl | hbm
      · refine ⟨[], b, xs, rfl, hbp, ?_⟩
        intro b' hb' hpb'
        exact hex ⟨b', hb', hpb'⟩
      · exact absurd ⟨b, hbm, hbp⟩ hex

/-- The queue invariant of the breadth-first loop: children are precomputed
from extensions, depths (parent-chain lengths) are sorted front to back, and
no depth exceeds the front's depth by more than one. -/
def BQInv {α : Type} (P : Puzzle α) (Q : List (BEntry α)) : Prop :=
  (∀ e ∈ Q, e.kids = P.extensions e.cur) ∧
  Q.Pairwise (fun a b => a.pre.length ≤ b.pre.length) ∧
  (∀ h e, Q.head? = some h → e ∈ Q → e.pre.length ≤ h.pre.length + 1)

/-- The front of a queue satisfying the invariant has minimal depth. -/
theorem BQInv_head_min {α : Type} (P : Puzzle α) {h : BEntry α} {q : List (BEntry α)}
    (hq : BQInv P (h :: q)) : ∀ e ∈ h :: q, h.pre.length ≤ e.pre.length := by
  intro e he
  rw [List.mem_cons] at he
  rcases he with rfl | he
  · exact le_refl _
  · exact (List.pairwise_cons.mp hq.2.1).1 e he

/-- Dropping the front preserves the queue invariant. -/
theorem BQInv_tail {α : Type} (P : Puzzle α) {h : BEntry α} {q : List (BEntry α)}
    (hq : BQInv P (h :: q)) : BQInv P q := by
  obtain ⟨h1, h2, h3⟩ := hq
  refine ⟨fun e he => h1 e (List.mem_cons_of_mem _ he),
    (List.pairwise_cons.mp h2).2, ?_⟩
  intro h' e hh' he
  have hh'm : h' ∈ q := by
    cases q with
    | nil => simp at hh'
    | cons a q' =>
      simp only [List.head?_cons, Option.some.injEq] at hh'
      exact hh' ▸ List.mem_cons_self _ _
  have e1 : e.pre.length ≤ h.pre.length + 1 :=
    h3 h e rfl (List.mem_cons_of_mem _ he)
  have e2 : h.pre.length ≤ h'.pre.length :=
    (List.pairwise_cons.mp h2).1 h' hh'm
  omega

/-- Expanding the front preserves the queue invariant: the new entries all
sit one level below the front. -/
theorem BQInv_expand {α : Type} (P : Puzzle α) {h : BEntry α} {q newE : List (BEntry α)}
    (hq : BQInv P (h :: q))
    (hnew : ∀ e ∈ newE, e.pre.length = h.pre.length + 1 ∧
      e.kids = P.extensions e.cur) : BQInv P (q ++ newE) := by
  obtain ⟨h1, h2, h3⟩ := hq
  have hqtail := (List.pairwise_cons.mp h2).2
  have hqge : ∀ e ∈ q, h.pre.length ≤ e.pre.length := (List.pairwise_cons.mp h2).1
  have hqle : ∀ e ∈ q, e.pre.length ≤ h.pre.length + 1 :=
    fun e he => h3 h e rfl (List.mem_cons_of_mem _ he)
  refine ⟨?_, ?_, ?_⟩
  · intro e he
    rw [List.mem_append] at he
    rcases he with he | he
    · exact h1 e (List.mem_cons_of_mem _ he)
    · exact (hnew e he).2
  · rw [List.pairwise_append]
    refine ⟨hqtail, ?_, ?_⟩
    · refine List.pairwise_iff_forall_sublist.mpr ?_
      intro a b hab
      have ha := hab.subset (List.mem_cons_self a [b])
      have hb := hab.subset (List.mem_cons_of_mem a (List.mem_singleton_self b))
      rw [(hnew a ha).1, (hnew b hb).1]
    · intro a ha b hb
      have := hqle a ha
      rw [(hnew b hb).1]
      omega
  · intro h' e hh' he
    cases hq2 : q with
    | nil =>
      subst hq2
      rw [List.nil_append] at hh' he
      cases newE with
      | nil => simp at hh'
      | cons n0 newE' =>
        simp only [List.head?_cons, Option.some.injEq] at hh'
        subst hh'
        rw [(hnew n0 (List.mem_cons_self _ _)).1, (hnew e he).1]
        omega
    | cons q0 q' =>
      subst hq2
      simp only [List.cons_append, List.head?_cons, Option.some.injEq] at hh'
      subst hh'
      have h0ge : h.pre.length ≤ q0.pre.length :=
        hqge q0 (List.mem_cons_self _ _)
      rw [List.cons_append, List.mem_cons] at he
      rcases he with rfl | he
      · omega
      · rw [List.mem_append] at he
        rcases he with he | he
        · have := hqle e (List.mem_cons_of_mem _ he)
          omega
        · rw [(hnew e he).1]; omega

/-- The path invariant of the breadth-first loop, relative to a fixed
solution record `moves` from `root`: some prefix `m1` of the moves has its
final configuration sitting in the queue at depth at most `m1.length`, and
no key of the remaining moves `m2` has been visited. -/
def PathInv {α : Type} (P : Puzzle α) (root : α) (moves : List α)
    (Q : List (BEntry α)) (S : List String) : Prop :=
  ∃ m1 m2, moves = m1 ++ m2 ∧
    (∃ e ∈ Q, e.cur = m1.getLastD root ∧ e.pre.length ≤ m1.length) ∧
    (∀ b ∈ m2, P.render b ∉ S)

/-- Optimality of the breadth-first loop: if the queue and path invariants
hold for a solution record of `moves.length` moves and the loop returns a
found entry, that entry's depth is at most `moves.length`.  (Key injectivity
stands in for the contract's requirement that canonical keys never collide
across distinct states.) -/
theorem bfsLoopT_minimal {α : Type} [DecidableEq α] (P : Puzzle α) (root : α)
    (moves : List α) (hsol : SolSeq P root moves = true)
    (hinj : ∀ a b : α, P.render a = P.render b → a = b) :
    ∀ (fuel : Nat) (Q : List (BEntry α)) (S : List String) (mk cr : List α)
      (e' : BEntry α) (S' : List String) (mk' cr' : List α),
      BQInv P Q → PathInv P root moves Q S →
      bfsLoopT P fuel Q S mk cr = some (some e', S', mk', cr') →
      e'.pre.length ≤ moves.length := by
  intro fuel
  induction fuel with
  | zero =>
    intro Q S mk cr e' S' mk' cr' _ _ h
    simp [bfsLoopT] at h
  | succ f ih =>
    intro Q S mk cr e' S' mk' cr' hq hp h
    match Q with
    | [] => simp [bfsLoopT] at h
    | hd :: q =>
      rw [bfsLoopT] at h
      split at h
      next hns =>
        split at h
        next hnf =>
          replace h : bfsLoopT P f
              (processKidsT P hd.kids (hd.pre ++ [hd.cur]) q S mk cr).1
              (processKidsT P hd.kids (hd.pre ++ [hd.cur]) q S mk cr).2.1
              (processKidsT P hd.kids (hd.pre ++ [hd.cur]) q S mk cr).2.2.1
              (processKidsT P hd.kids (hd.pre ++ [hd.cur]) q S mk cr).2.2.2 =
              some (some e', S', mk', cr') := h
          obtain ⟨newE, k1, k2, k3, k4, k5, k6⟩ :=
            processKidsT_spec P hd.kids (hd.pre ++ [hd.cur]) q S mk cr
          have hqinv' :
              BQInv P (processKidsT P hd.kids (hd.pre ++ [hd.cur]) q S mk cr).1 := by
            rw [k1]
            refine BQInv_expand P hq (fun e he => ⟨?_, (k4 e he).2.1⟩)
            rw [(k4 e he).1]
            simp
          unfold PathInv at hp
          obtain ⟨m1, m2, hm, ⟨e, heQ, hcur, hlen⟩, hfresh⟩ := hp
          by_cases hb : ∃ b ∈ m2, P.render b ∈
              (processKidsT P hd.kids (hd.pre ++ [hd.cur]) q S mk cr).2.1
          · obtain ⟨l1, b, l2, hsplit, hbkey, hl2⟩ :=
              exists_last_with_prop _ m2 hb
            have hbm2 : b ∈ m2 := by
              rw [hsplit]
              exact List.mem_append_right _ (List.mem_cons_self _ _)
            have hbfresh : P.render b ∉ S := hfresh b hbm2
            have hbnew : ∃ e2 ∈ newE, P.render e2.cur = P.render b := by
              rw [k2, List.mem_append] at hbkey
              rcases hbkey with hk | hk
              · rw [List.mem_reverse] at hk
                obtain ⟨e2, he2, heq⟩ := List.mem_map.mp hk
                exact ⟨e2, he2, heq⟩
              · exact absurd hk hbfresh
            obtain ⟨e2, he2, he2key⟩ := hbnew
            have he2cur : e2.cur = b := hinj _ _ he2key
            refine ih _ _ _ _ e' S' mk' cr' hqinv'
              ⟨m1 ++ (l1 ++ [b]), l2, ?_, ⟨e2, ?_, ?_, ?_⟩, hl2⟩ h
            · rw [hm, hsplit]
              simp
            · rw [k1]
              exact List.mem_append_right _ he2
            · rw [he2cur, ← List.append_assoc, List.getLastD_concat]
            · have h1 : e2.pre.length = hd.pre.length + 1 := by
                rw [(k4 e2 he2).1]
                simp
              have h2 : hd.pre.length ≤ e.pre.length := BQInv_head_min P hq e heQ
              simp only [List.length_append, List.length_cons, List.length_nil]
              omega
          · push_neg at hb
            rw [List.mem_cons] at heQ
            have heq2 : e ∈ q := by
              rcases heQ with rfl | hq2
              · exfalso
                have hsol' : SolSeq P root (m1 ++ m2) = true := by
                  rw [← hm]; exact hsol
                have hsol2 := solSeq_append P m1 m2 root hsol'
                rw [← hcur] at hsol2
                cases m2 with
                | nil =>
                  rw [SolSeq] at hsol2
                  rw [hsol2] at hns
                  exact absurd hns (by simp)
                | cons c m2' =>
                  rw [SolSeq] at hsol2
                  simp only [Bool.and_eq_true, decide_eq_true_eq] at hsol2
                  have hcext : c ∈ P.extensions e.cur := hsol2.1.2
                  have hkids : e.kids = P.extensions e.cur :=
                    hq.1 e (List.mem_cons_self _ _)
                  have hckey := k6 c (by rw [hkids]; exact hcext)
                  exact hb c (List.mem_cons_self _ _) hckey
              · exact hq2
            refine ih _ _ _ _ e' S' mk' cr' hqinv'
              ⟨m1, m2, hm, ⟨e, ?_, hcur, hlen⟩, hb⟩ h
            rw [k1]
            exact List.mem_append_left _ heq2
        next hnf =>
          unfold PathInv at hp
          obtain ⟨m1, m2, hm, ⟨e, heQ, hcur, hlen⟩, hfresh⟩ := hp
          rw [List.mem_cons] at heQ
          have heq2 : e ∈ q := by
            rcases heQ with rfl | hq2
            · exfalso
              have hsol' : SolSeq P root (m1 ++ m2) = true := by
                rw [← hm]; exact hsol
              have hsol2 := solSeq_append P m1 m2 root hsol'
              rw [← hcur] at hsol2
              cases m2 with
              | nil =>
                rw [SolSeq] at hsol2
                rw [hsol2] at hns
                exact absurd hns (by simp)
              | cons c m2' =>
                rw [SolSeq] at hsol2
                simp only [Bool.and_eq_true, Bool.not_eq_true'] at hsol2
                exact hnf hsol2.1.1.2
            · exact hq2
          exact ih q S mk cr e' S' mk' cr' (BQInv_tail P hq)
            ⟨m1, m2, hm, ⟨e, heq2, hcur, hlen⟩, hfresh⟩ h
      next hns =>
        simp only [Option.some.injEq, Prod.mk.injEq] at h
        obtain ⟨rfl, -⟩ := h
        unfold PathInv at hp
        obtain ⟨m1, m2, hm, ⟨e, heQ, hcur, hlen⟩, -⟩ := hp
        have h1 : hd.pre.length ≤ e.pre.length := BQInv_head_min P hq e heQ
        have h2 : m1.length ≤ moves.length := by
          rw [hm]
          simp
        omega

/-- C1 (amended): when `breadth_first_solve` returns a chain, its move count
(node count minus one) is at most the length of *any* solution record not
pruned by `fail_fast` -- hence at most the brute-force shortest-path length
-- provided the contract's key-fineness holds (`render` injective) and no
configuration's key collides with the initial node rendering that line 134
of `puzzle_tools.py` stores in `seen` instead of the root's key. -/
theorem bfs_shortest {α : Type} [DecidableEq α] (P : Puzzle α) (fuel : Nat)
    (root : α) (t : PNode α) (moves : List α)
    (hinj : ∀ a b : α, P.render a = P.render b → a = b)
    (hkey : ∀ a : α, P.render a ≠ initNodeStr P root)
    (hrun : breadth_first_solve P fuel root = some (some t))
    (hsol : SolSeq P root moves = true) :
    nodeCount t ≤ moves.length + 1 := by
  unfold breadth_first_solve at hrun
  cases heq : helper_bfsT P fuel root with
  | none => rw [heq] at hrun; exact absurd hrun (by simp)
  | some val =>
    obtain ⟨res, S', mk', cr'⟩ := val
    cases res with
    | none => rw [heq] at hrun; exact absurd hrun (by simp)
    | some e =>
      rw [heq] at hrun
      obtain rfl : chainFrom e.pre e.cur = t := by simpa using hrun
      unfold helper_bfsT at heq
      have hq : BQInv P [⟨root, [], P.extensions root⟩] := by
        refine ⟨?_, List.pairwise_singleton _ _, ?_⟩
        · intro e2 he2
          rw [List.mem_singleton] at he2
          subst he2
          rfl
        · intro h2 e2 hh2 he2
          rw [List.mem_singleton] at he2
          subst he2
          simp
      have hpi : PathInv P root moves [⟨root, [], P.extensions root⟩]
          [initNodeStr P root] := by
        refine ⟨[], moves, rfl,
          ⟨⟨root, [], P.extensions root⟩, List.mem_singleton_self _, rfl, ?_⟩, ?_⟩
        · simp
        · intro b _ hmem
          rw [List.mem_singleton] at hmem
          exact hkey b hmem
      have hmin := bfsLoopT_minimal P root moves hsol hinj fuel _ _ _ _
        e S' mk' cr' hq hpi heq
      rw [nodeCount_chainFrom]
      omega

/-- Witness for C1 (amended) on the line puzzle: the returned three-node
chain has two moves, no more than the two-move solution record. -/
theorem bfs_shortest_witness :
    nodeCount (chainFrom [LinS.s0, LinS.s1] LinS.s2) ≤
      ([LinS.s1, LinS.s2] : List LinS).length + 1 :=
  bfs_shortest LinP 6 LinS.s0 (chainFrom [LinS.s0, LinS.s1] LinS.s2)
    [LinS.s1, LinS.s2] (by decide) (by decide) rfl (by decide)

/-- The counterexample puzzle's canonical keys are injective, as the
contract demands: `WP` is a conforming variant. -/
theorem WP_keys_injective : ∀ u v : WS, WP.render u = WP.render v → u = v := by
  decide

/-- Counterexample to C1 as stated: on the contract-conforming puzzle `WP`,
whose state `x` renders exactly as the node string stored in `seen` at
start, `breadth_first_solve` returns a five-node (four-move) chain although
a three-move fail-fast-free solution `r -> a -> x -> g` exists: the state
`x` is never expanded because its key collides with the stored
`str(first_node)`. -/
theorem bfs_shortest_counterexample :
    breadth_first_solve WP 10 WS.r =
      some (some (chainFrom [WS.r, WS.a, WS.b, WS.b2] WS.g)) ∧
    nodeCount (chainFrom [WS.r, WS.a, WS.b, WS.b2] WS.g) = 5 ∧
    SolSeq WP WS.r [WS.a, WS.x, WS.g] = true ∧
    WP.render WS.x = initNodeStr WP WS.r ∧
    ¬ (5 ≤ ([WS.a, WS.x, WS.g] : List WS).length + 1) :=
  ⟨rfl, by rw [nodeCount_chainFrom]; rfl, by decide, by decide, by decide⟩
